import Mathlib

/-!
Shallow embedding of the chinese-checkers search engine (src/src/game.cpp).

The board is a pair of 81-cell occupancy bitboards held in 128-bit integers;
they are modelled as `Nat` (all bit operations the code performs stay inside
the value range of `uint128_t` under the well-formedness hypotheses used by
the theorems, so no explicit `% 2^128` is needed on the operations
themselves; the one place the code relies on 128-bit width, the `~occupied`
mask, is modelled as XOR against `2^128 - 1`).

The geometry tables (`ADJ_POSITIONS`, `JUMP_POSITIONS`, `PIECE_DISTANCES`,
`PIECE_SCORE_TABLE`, `ZOBRIST_TABLE`, initial occupancy masks) come from
`constants.hpp`, which the spec declares an external collaborator; every
definition is parametrised over a `Tables` record holding them.
-/

namespace CC

inductive Color
  | EMPTY
  | RED
  | GREEN
deriving DecidableEq, Repr

structure Move where
  src : Int
  dst : Int
deriving DecidableEq, Repr

/-- The external geometry tables consumed by the engine (spec §6 provider
contract); `constants.hpp` is outside the core, so they are parameters. -/
structure Tables where
  ADJ : Nat → Nat
  JUMP : Nat → Nat → Nat
  DIST : Int → Int
  SCORE : Int → Int
  Z : Nat → Color → Nat
  INIT_RED : Nat
  INIT_GREEN : Nat

/-- `uint128_t` all-ones value, used to model the C++ `~` on 128-bit boards. -/
def mask128 : Nat := 2 ^ 128 - 1

/-- `Position` of the spec: `GameState` of game.cpp.  `b0` is the unused
`board[EMPTY]` slot of the C++ `board[3]` array (always 0). -/
structure GameState where
  b0 : Nat
  bR : Nat
  bG : Nat
  turn : Color
  round : Int
deriving DecidableEq, Repr

def GameState.board (s : GameState) : Color → Nat
  | Color.EMPTY => s.b0
  | Color.RED => s.bR
  | Color.GREEN => s.bG

def GameState.setBoard (s : GameState) (c : Color) (v : Nat) : GameState :=
  match c with
  | Color.EMPTY => { s with b0 := v }
  | Color.RED => { s with bR := v }
  | Color.GREEN => { s with bG := v }

/-- `GameState::GameState()`. -/
def GameState.init (t : Tables) : GameState :=
  ⟨0, t.INIT_RED, t.INIT_GREEN, Color.RED, 1⟩

/-- The copy constructor `GameState::GameState(GameState const &)` (it writes
`board[0] := 0` explicitly). -/
def GameState.copy (s : GameState) : GameState :=
  ⟨0, s.bR, s.bG, s.turn, s.round⟩

/-- The `SCAN_REVERSE` macro: iterate the set bits of a 128-bit value from the
highest position down.  For `x < 2^128` this is exactly the sequence of
`bitlen_u128(x) - 1` values the C++ loop visits. -/
def bitsDesc (x : Nat) : List Nat :=
  ((List.range 128).filter x.testBit).reverse

/-- `GameState::jumpMoves`, with an explicit fuel argument standing for the
(unbounded) C++ recursion; `jumpMovesF_stable` below shows fuel 82 reaches
the fixpoint, which is the termination argument. `occ` is
`board[RED] | board[GREEN]`, constant across the recursion. -/
def jumpMovesF (t : Tables) (occ : Nat) : Nat → Nat → Nat → Nat
  | 0, _, tset => tset
  | fuel + 1, src, tset =>
    let jumps := t.JUMP src (t.ADJ src &&& occ) &&& (mask128 ^^^ occ)
    if jumps ||| tset = tset then tset
    else (bitsDesc jumps).foldl (fun acc dst => jumpMovesF t occ fuel dst acc) (tset ||| jumps)

def jumpMoves (t : Tables) (occ src tset : Nat) : Nat :=
  jumpMovesF t occ 82 src tset

def resolveColor (s : GameState) (c : Color) : Color :=
  if c = Color.EMPTY then s.turn else c

/-- The strict comparator passed to `std::sort` in `legalMoves`. -/
def moveLt (t : Tables) (color : Color) (a b : Move) : Bool :=
  if color = Color.RED then
    decide (t.DIST a.dst - t.DIST a.src < t.DIST b.dst - t.DIST b.src)
  else
    decide (t.DIST b.dst - t.DIST b.src < t.DIST a.dst - t.DIST a.src)

def insertSorted (le : Move → Move → Bool) (a : Move) : List Move → List Move
  | [] => [a]
  | b :: l => if le a b then a :: b :: l else b :: insertSorted le a l

/-- `std::sort` is an unspecified comparison sort; any permutation consistent
with the comparator is a valid execution, modelled here by insertion sort. -/
def sortMoves (le : Move → Move → Bool) : List Move → List Move
  | [] => []
  | a :: l => insertSorted le a (sortMoves le l)

/-- `GameState::legalMoves(Color)`. -/
def GameState.legalMoves (t : Tables) (s : GameState) (c : Color) : List Move :=
  let color := resolveColor s c
  let occ := s.bR ||| s.bG
  let raw := (bitsDesc (s.board color)).flatMap (fun src =>
    let t0 := t.ADJ src &&& (mask128 ^^^ occ)
    let to2 := jumpMoves t occ src t0
    (bitsDesc to2).map (fun (dst : Nat) => Move.mk (src : Int) (dst : Int)))
  sortMoves (fun a b => !(moveLt t color b a)) raw

/-- `GameState::applyMove`.  Shifts `(uint128_t)1 << move.src`; for the legal
moves the engine produces, `src`/`dst` are in `[0,81)` so `.toNat` is exact. -/
def GameState.applyMove (s : GameState) (m : Move) : GameState :=
  let s1 := s.setBoard s.turn (s.board s.turn ^^^ (1 <<< m.src.toNat))
  let s2 := s1.setBoard s1.turn (s1.board s1.turn ||| (1 <<< m.dst.toNat))
  let s3 := { s2 with turn := if s2.turn = Color.RED then Color.GREEN else Color.RED }
  if s3.turn = Color.RED then { s3 with round := s3.round + 1 } else s3

/-- Modelled from the spec: `undoMove` is described in §4.1 ("the exact
algebraic inverse, including hash and round bookkeeping") but its definition
is not under src/ (only `applyMove` is).  The inverse of `applyMove`: flip
the side back, undo the round increment, clear the destination bit and
restore the source bit of the mover's occupancy. -/
def GameState.undoMove (s : GameState) (m : Move) : GameState :=
  let mover := if s.turn = Color.RED then Color.GREEN else Color.RED
  let round2 := if s.turn = Color.RED then s.round - 1 else s.round
  let s2 := s.setBoard mover ((s.board mover ^^^ (1 <<< m.dst.toNat)) ||| (1 <<< m.src.toNat))
  { s2 with turn := mover, round := round2 }

def INF : Int := 2147483647

/-- The `lastRed` minimum computed by `GameState::evaluate` (minimum of
`PIECE_DISTANCES[80 - pos]` over red pieces, starting from `INF`). -/
def lastRedD (t : Tables) (s : GameState) : Int :=
  (bitsDesc s.bR).foldl
    (fun acc p => if t.DIST (80 - (p : Int)) < acc then t.DIST (80 - (p : Int)) else acc) INF

/-- The `lastGreen` minimum computed by `GameState::evaluate`. -/
def lastGreenD (t : Tables) (s : GameState) : Int :=
  (bitsDesc s.bG).foldl
    (fun acc p => if t.DIST (p : Int) < acc then t.DIST (p : Int) else acc) INF

/-- Red's positional sum minus the convex penalty `1 << max(0, 5 - lastRed)`,
before the terminal overrides. -/
def redBase (t : Tables) (s : GameState) : Int :=
  (bitsDesc s.bR).foldl (fun acc p => acc + t.SCORE (80 - (p : Int))) 0
    - 2 ^ (max 0 (5 - lastRedD t s)).toNat

def greenBase (t : Tables) (s : GameState) : Int :=
  (bitsDesc s.bG).foldl (fun acc p => acc + t.SCORE ((p : Int))) 0
    - 2 ^ (max 0 (5 - lastGreenD t s)).toNat

/-- The pair `(redScore, greenScore)` at the end of `GameState::evaluate`,
after the two sequential terminal overrides (`lastRed == 13` first,
`lastGreen == 13` second). -/
def evaluateScores (t : Tables) (s : GameState) : Int × Int :=
  let base := (redBase t s, greenBase t s)
  let afterRed := if lastRedD t s = 13 then ((10000 : Int), (0 : Int)) else base
  if lastGreenD t s = 13 then (0, 10000) else afterRed

/-- `GameState::evaluate(int maxiumColor)` (source spelling kept). -/
def GameState.evaluate (t : Tables) (s : GameState) (maxiumColor : Color) : Int :=
  let p := evaluateScores t s
  if maxiumColor = Color.RED then p.1 - p.2 else p.2 - p.1

/-- `GameState::isGameOver`. -/
def GameState.isGameOver (t : Tables) (s : GameState) : Bool :=
  let redWin := (bitsDesc s.bR).foldl (fun w p => if t.DIST (p : Int) > 3 then false else w) true
  let greenWin := (bitsDesc s.bG).foldl (fun w p => if t.DIST (p : Int) < 13 then false else w) true
  redWin || greenWin

/-- `GameState::hash()`: Zobrist fold over cells 0..80 plus the fixed
side-to-move key for GREEN. -/
def GameState.hash (t : Tables) (s : GameState) : Nat :=
  let h := (List.range 81).foldl
    (fun h i =>
      if s.bR.testBit i then h ^^^ t.Z i Color.RED
      else if s.bG.testBit i then h ^^^ t.Z i Color.GREEN
      else h) 0
  if s.turn = Color.GREEN then h ^^^ 0xc503204d9e521ac5 else h

inductive HashFlag
  | EXACT
  | ALPHA
  | BETA
deriving DecidableEq, Repr

structure TTEntry where
  value : Int
  depth : Nat
  flag : HashFlag
  bestMove : Move
  maxiumColor : Color
deriving DecidableEq, Repr

/-- Modelled from the spec: the transposition cache type `cache::lru_cache`
comes from `cache.hpp`, which is not under src/.  Per §4.3 it is a map from
64-bit hash to entry with `exists`/`get`/`put`, last-write-wins on `put`,
and LRU eviction only once 2^20 entries are resident; at the small sizes the
theorems exercise, eviction never fires, so it is modelled as an overwrite
association list. -/
abbrev Cache := List (Nat × TTEntry)

def Cache.empty : Cache := []

def Cache.find (c : Cache) (h : Nat) : Option TTEntry :=
  List.lookup h c

def Cache.put (c : Cache) (h : Nat) (e : TTEntry) : Cache :=
  (h, e) :: c

/-- Result of one `maxValue`/`minValue` call: the returned `(Move, int)` pair,
the transposition table state (`HASH_TABLE` is a global, modelled by explicit
state passing), and — as pure instrumentation — the list of moves the node's
own loop passed to `applyMove`, in order. -/
structure SRes where
  move : Move
  value : Int
  cache : Cache
  applied : List Move

/-- The transposition-table probe shared by `maxValue` (`isMax = true`) and
`minValue` (`isMax = false`): an entry of sufficient depth and matching
`maxiumColor` short-circuits on `HASH_EXACT`, on `HASH_BETA` with
`value >= beta` (max nodes), or on `HASH_ALPHA` with `value <= alpha`
(min nodes); `none` means fall through to the node body. -/
def probeHit (isMax : Bool) (depth : Nat) (alpha beta : Int) (mc : Color)
    (c : Cache) (e : TTEntry) : Option SRes :=
  if e.depth ≥ depth ∧ e.maxiumColor = mc then
    if e.flag = HashFlag.EXACT then some ⟨e.bestMove, e.value, c, []⟩
    else if isMax then
      if e.flag = HashFlag.BETA ∧ e.value ≥ beta then some ⟨e.bestMove, beta, c, []⟩ else none
    else
      if e.flag = HashFlag.ALPHA ∧ e.value ≤ alpha then some ⟨e.bestMove, alpha, c, []⟩ else none
  else none

/-- The move loop of `maxValue`: `alpha`, `bestMove`, `flag` and the table are
the loop-carried state; `child` is the `minValue` call one ply down and
`dstore` the depth recorded in stored entries (the node's own depth). -/
def maxLoopG (child : GameState → Int → Int → Cache → SRes) (gs : GameState)
    (dstore : Nat) (beta : Int) (mc : Color) (h : Nat) :
    List Move → Int → Move → HashFlag → Cache → SRes
  | [], alpha, best, flag, c => ⟨best, alpha, c.put h ⟨alpha, dstore, flag, best, mc⟩, []⟩
  | m :: rest, alpha, best, flag, c =>
    let r := child (gs.copy.applyMove m) alpha beta c
    if r.value > alpha then
      if beta ≤ r.value then
        ⟨m, r.value, r.cache.put h ⟨r.value, dstore, HashFlag.BETA, m, mc⟩, [m]⟩
      else
        let k := maxLoopG child gs dstore beta mc h rest r.value m HashFlag.EXACT r.cache
        ⟨k.move, k.value, k.cache, m :: k.applied⟩
    else
      let k := maxLoopG child gs dstore beta mc h rest alpha best flag r.cache
      ⟨k.move, k.value, k.cache, m :: k.applied⟩

/-- The move loop of `minValue`: here `beta` is the loop-carried bound. -/
def minLoopG (child : GameState → Int → Int → Cache → SRes) (gs : GameState)
    (dstore : Nat) (alpha : Int) (mc : Color) (h : Nat) :
    List Move → Int → Move → HashFlag → Cache → SRes
  | [], beta, best, flag, c => ⟨best, beta, c.put h ⟨beta, dstore, flag, best, mc⟩, []⟩
  | m :: rest, beta, best, flag, c =>
    let r := child (gs.copy.applyMove m) alpha beta c
    if r.value < beta then
      if r.value ≤ alpha then
        ⟨m, r.value, r.cache.put h ⟨r.value, dstore, HashFlag.ALPHA, m, mc⟩, [m]⟩
      else
        let k := minLoopG child gs dstore alpha mc h rest r.value m HashFlag.EXACT r.cache
        ⟨k.move, k.value, k.cache, m :: k.applied⟩
    else
      let k := minLoopG child gs dstore alpha mc h rest beta best flag r.cache
      ⟨k.move, k.value, k.cache, m :: k.applied⟩

/-- `maxValue`/`minValue` of game.cpp merged on an `isMax` flag so that the
recursion is structural on `depth` (they are mutually recursive, alternating
`isMax` one ply down).  At depth 0 the body returns `evaluate` whether or not
the position is terminal, exactly as the C++ `isGameOver() || depth == 0`
test does.  The deadline is modelled as never reached: the timeout throw is
the one behaviour not embedded, so this is the search as run with a deadline
large enough never to fire, which is what every result-claim is about. -/
def searchLevel (t : Tables) : Nat → Bool → GameState → Int → Int → Color → Cache → SRes
  | 0, isMax, gs, alpha, beta, mc, c =>
    let h := gs.hash t
    match Cache.find c h with
    | some e =>
      match probeHit isMax 0 alpha beta mc c e with
      | some r => r
      | none => ⟨⟨-2, -2⟩, gs.evaluate t mc, c, []⟩
    | none => ⟨⟨-2, -2⟩, gs.evaluate t mc, c, []⟩
  | d + 1, isMax, gs, alpha, beta, mc, c =>
    let h := gs.hash t
    let body := fun (_ : Unit) =>
      if gs.isGameOver t then ⟨⟨-2, -2⟩, gs.evaluate t mc, c, []⟩
      else if isMax then
        maxLoopG (fun ns a b cc => searchLevel t d false ns a b mc cc) gs (d + 1) beta mc h
          (gs.legalMoves t Color.EMPTY) alpha ⟨-3, -3⟩ HashFlag.ALPHA c
      else
        minLoopG (fun ns a b cc => searchLevel t d true ns a b mc cc) gs (d + 1) alpha mc h
          (gs.legalMoves t Color.EMPTY) beta ⟨-3, -3⟩ HashFlag.BETA c
    match Cache.find c h with
    | some e =>
      match probeHit isMax (d + 1) alpha beta mc c e with
      | some r => r
      | none => body ()
    | none => body ()

/-- `maxValue` of game.cpp. -/
def maxValue (t : Tables) (gs : GameState) (depth : Nat) (alpha beta : Int)
    (mc : Color) (c : Cache) : SRes :=
  searchLevel t depth true gs alpha beta mc c

/-- `minValue` of game.cpp. -/
def minValue (t : Tables) (gs : GameState) (depth : Nat) (alpha beta : Int)
    (mc : Color) (c : Cache) : SRes :=
  searchLevel t depth false gs alpha beta mc c

/-- Modelled from the spec: the backward-move exclusion rule of §4.2/§4.4
("progress delta ≤ −2") belongs to the search variant that is not under src/.
A side's progress at cell `c` is `PIECE_DISTANCES[80 − c]` for RED and
`PIECE_DISTANCES[c]` for GREEN (the orientation `evaluate` uses), and the
progress delta of a move is `progress(dst) − progress(src)`. -/
def progressDelta (t : Tables) (c : Color) (m : Move) : Int :=
  if c = Color.RED then t.DIST (80 - m.dst) - t.DIST (80 - m.src)
  else t.DIST m.dst - t.DIST m.src

inductive StoiErr
  | invalidArgument
  | outOfRange
deriving DecidableEq, Repr

def isSpaceChar (ch : Char) : Bool :=
  ch = ' ' || ch = '\t' || ch = '\n' || ch = Char.ofNat 11 || ch = Char.ofNat 12 || ch = '\r'

def digitsVal (l : List Char) : Nat :=
  l.foldl (fun a ch => 10 * a + (ch.toNat - 48)) 0

def stoiNum (sign : Int) (l : List Char) : Except StoiErr Int :=
  let ds := l.takeWhile Char.isDigit
  if ds = [] then Except.error StoiErr.invalidArgument
  else
    let v : Int := sign * (digitsVal ds : Nat)
    if v < -2147483648 ∨ 2147483647 < v then Except.error StoiErr.outOfRange
    else Except.ok v

/-- `std::stoi` restricted to base 10: skip whitespace, optional sign, decimal
digits; `invalid_argument` when no digits, `out_of_range` outside `int`. -/
def stoi (str : String) : Except StoiErr Int :=
  match str.data.dropWhile isSpaceChar with
  | [] => stoiNum 1 []
  | ch :: rest =>
    if ch = '+' then stoiNum 1 rest
    else if ch = '-' then stoiNum (-1) rest
    else stoiNum 1 (ch :: rest)

/-- Loop state of the string constructor `GameState::GameState(const std::string &)`:
occupancies, the cell cursor `p`, the character counter `i`, and the
side-to-move marker that ended the loop, if any. -/
structure ParseAcc where
  R : Nat
  G : Nat
  p : Nat
  i : Nat
  marker : Option Color
deriving DecidableEq, Repr

def parseLoop : List Char → Nat → Nat → Nat → Nat → ParseAcc
  | [], bR, bG, p, i => ⟨bR, bG, p, i, none⟩
  | ch :: rest, bR, bG, p, i =>
    if ch = '0' then parseLoop rest bR bG (p + 1) (i + 1)
    else if ch = '1' then parseLoop rest (bR ||| (1 <<< p)) bG (p + 1) (i + 1)
    else if ch = '2' then parseLoop rest bR (bG ||| (1 <<< p)) (p + 1) (i + 1)
    else if ch = 'r' then ⟨bR, bG, p, i, some Color.RED⟩
    else if ch = 'g' then ⟨bR, bG, p, i, some Color.GREEN⟩
    else parseLoop rest bR bG p (i + 1)

/-- Uncaught exceptions the string constructor can propagate: `substr(i+1)`
with `i + 1 > size()` and `std::stoi` overflow both raise
`std::out_of_range`, which the `catch (std::invalid_argument)` clause does
not catch. -/
inductive CtorErr
  | outOfRange
deriving DecidableEq, Repr

/-- `GameState::GameState(const std::string &)`. -/
def GameState.ofString (str : String) : Except CtorErr GameState :=
  let a := parseLoop str.data 0 0 0 0
  let turn := a.marker.getD Color.RED
  if a.i + 1 ≤ str.length then
    match stoi ⟨str.data.drop (a.i + 1)⟩ with
    | Except.ok v => Except.ok ⟨0, a.R, a.G, turn, v⟩
    | Except.error StoiErr.invalidArgument => Except.ok ⟨0, a.R, a.G, turn, 10⟩
    | Except.error StoiErr.outOfRange => Except.error CtorErr.outOfRange
  else Except.error CtorErr.outOfRange

def digitChar (d : Nat) : Char := Char.ofNat (48 + d)

def natDigitsRev (n : Nat) : List Char :=
  if n < 10 then [digitChar n]
  else digitChar (n % 10) :: natDigitsRev (n / 10)
decreasing_by exact Nat.div_lt_self (by omega) (by omega)

def natRepr (n : Nat) : List Char := (natDigitsRev n).reverse

/-- `std::to_string` on `int`. -/
def intRepr (v : Int) : List Char :=
  if v < 0 then '-' :: natRepr (-v).toNat else natRepr v.toNat

def rowChar (s : GameState) (i : Nat) : Char :=
  if s.bR.testBit i then '1' else if s.bG.testBit i then '2' else '0'

/-- `GameState::toString()`. -/
def GameState.toStr (s : GameState) : String :=
  let cells := (List.range 81).flatMap (fun i =>
    rowChar s i :: (if i % 9 = 8 ∧ i ≠ 80 then ['/'] else []))
  ⟨cells ++ (if s.turn = Color.RED then " r " else " g ").data ++ intRepr s.round⟩


/-! ### Bit-level helper lemmas -/

theorem land_eq_zero_iff {a b : Nat} :
    a &&& b = 0 ↔ ∀ i, ¬(a.testBit i = true ∧ b.testBit i = true) := by
  constructor
  · intro h i ⟨ha, hb⟩
    have := congrArg (fun x => x.testBit i) h
    simp [Nat.testBit_land, ha, hb] at this
  · intro h
    apply Nat.eq_of_testBit_eq
    intro i
    simp only [Nat.testBit_land, Nat.zero_testBit]
    rcases ha : a.testBit i <;> rcases hb : b.testBit i <;> simp_all

theorem lor_eq_right_iff {a b : Nat} :
    a ||| b = b ↔ ∀ i, a.testBit i = true → b.testBit i = true := by
  constructor
  · intro h i ha
    have := congrArg (fun x => x.testBit i) h
    simpa [Nat.testBit_lor, ha] using this
  · intro h
    apply Nat.eq_of_testBit_eq
    intro i
    simp only [Nat.testBit_lor]
    rcases ha : a.testBit i <;> rcases hb : b.testBit i <;> simp_all

theorem mem_bitsDesc {x p : Nat} : p ∈ bitsDesc x ↔ p < 128 ∧ x.testBit p = true := by
  simp only [bitsDesc, List.mem_reverse, List.mem_filter, List.mem_range]

theorem bitsDesc_nodup (x : Nat) : (bitsDesc x).Nodup := by
  rw [bitsDesc, List.nodup_reverse]
  exact (List.nodup_range 128).filter _

theorem testBit_lt_of_lt_two_pow {x n i : Nat} (h : x < 2 ^ n) (hi : x.testBit i = true) : i < n := by
  by_contra hc
  have hx : x < 2 ^ i := lt_of_lt_of_le h (Nat.pow_le_pow_right (by omega) (by omega))
  rw [Nat.testBit_lt_two_pow hx] at hi
  exact Bool.false_ne_true hi

theorem lt_two_pow_of_high_bits {x n : Nat} (h : ∀ i, n ≤ i → x.testBit i = false) : x < 2 ^ n := by
  have hx : x = x &&& (2 ^ n - 1) := by
    apply Nat.eq_of_testBit_eq
    intro i
    simp only [Nat.testBit_land, Nat.testBit_two_pow_sub_one]
    by_cases hi : i < n
    · simp [hi]
    · simp [hi, h i (by omega)]
  calc x = x &&& (2 ^ n - 1) := hx
    _ ≤ 2 ^ n - 1 := Nat.and_le_right
    _ < 2 ^ n := by have := Nat.pos_pow_of_pos n (show 0 < 2 by omega); omega

theorem lor_lt_two_pow {a b n : Nat} (ha : a < 2 ^ n) (hb : b < 2 ^ n) : a ||| b < 2 ^ n := by
  apply lt_two_pow_of_high_bits
  intro i hi
  have h1 : a.testBit i = false := by
    rcases h : a.testBit i with _ | _
    · rfl
    · exact absurd (testBit_lt_of_lt_two_pow ha h) (by omega)
  have h2 : b.testBit i = false := by
    rcases h : b.testBit i with _ | _
    · rfl
    · exact absurd (testBit_lt_of_lt_two_pow hb h) (by omega)
  simp [Nat.testBit_lor, h1, h2]

/-- Helper: toggling a set bit off and back on restores the word. -/
theorem xor_lor_cancel {x p : Nat} (h : x.testBit p = true) :
    (x ^^^ (1 <<< p)) ||| (1 <<< p) = x := by
  apply Nat.eq_of_testBit_eq
  intro i
  simp only [Nat.testBit_lor, Nat.testBit_xor, Nat.one_shiftLeft, Nat.testBit_two_pow]
  by_cases hip : p = i
  · subst hip; simp [h]
  · simp [hip]

/-- Helper: setting a clear bit and clearing it again restores the word. -/
theorem lor_xor_cancel {x p : Nat} (h : x.testBit p = false) :
    (x ||| (1 <<< p)) ^^^ (1 <<< p) = x := by
  apply Nat.eq_of_testBit_eq
  intro i
  simp only [Nat.testBit_lor, Nat.testBit_xor, Nat.one_shiftLeft, Nat.testBit_two_pow]
  by_cases hip : p = i
  · subst hip; simp [h]
  · simp [hip]

/-! ### Sorting: `sortMoves` is a permutation -/

theorem insertSorted_perm (le : Move → Move → Bool) (a : Move) (l : List Move) :
    (insertSorted le a l).Perm (a :: l) := by
  induction l with
  | nil => simp [insertSorted]
  | cons b l ih =>
    rw [insertSorted]
    by_cases h : le a b = true
    · simp [h]
    · rw [if_neg h]
      exact (ih.cons b).trans (List.Perm.swap a b l)

theorem sortMoves_perm (le : Move → Move → Bool) (l : List Move) :
    (sortMoves le l).Perm l := by
  induction l with
  | nil => simp [sortMoves]
  | cons a l ih =>
    rw [sortMoves]
    exact (insertSorted_perm le a (sortMoves le l)).trans (ih.cons a)

/-! ### Jump-chain expansion: monotonicity, boundedness, termination -/

/-- Number of board cells (bit positions below 81) present in a bit-set. -/
def bcard (x : Nat) : Nat :=
  ((Finset.range 81).filter (fun i => x.testBit i = true)).card

theorem bcard_le (x : Nat) : bcard x ≤ 81 :=
  le_trans (Finset.card_filter_le _ _) (by simp)

theorem bcard_mono {a b : Nat} (h : ∀ i, a.testBit i = true → b.testBit i = true) :
    bcard a ≤ bcard b := by
  apply Finset.card_le_card
  intro i hi
  simp only [Finset.mem_filter, Finset.mem_range] at hi ⊢
  exact ⟨hi.1, h i hi.2⟩

theorem bcard_strict {a b : Nat} (h : ∀ i, a.testBit i = true → b.testBit i = true)
    {i : Nat} (hi : i < 81) (hb : b.testBit i = true) (ha : a.testBit i = false) :
    bcard a < bcard b := by
  apply Finset.card_lt_card
  rw [Finset.ssubset_def]
  constructor
  · intro j hj
    simp only [Finset.mem_filter, Finset.mem_range] at hj ⊢
    exact ⟨hj.1, h j hj.2⟩
  · intro hsub
    have hmem : i ∈ (Finset.range 81).filter (fun j => b.testBit j = true) := by
      simp [Finset.mem_filter, hi, hb]
    have := hsub hmem
    simp [Finset.mem_filter, ha] at this

theorem bcard_full {x : Nat} (h : 81 ≤ bcard x) {i : Nat} (hi : i < 81) :
    x.testBit i = true := by
  by_contra hc
  have hsub : ((Finset.range 81).filter (fun j => x.testBit j = true)) ⊆
      (Finset.range 81).erase i := by
    intro j hj
    simp only [Finset.mem_filter, Finset.mem_range] at hj
    apply Finset.mem_erase.2
    refine ⟨?_, by simp [hj.1]⟩
    rintro rfl
    exact hc hj.2
  have hcard := Finset.card_le_card hsub
  rw [Finset.card_erase_of_mem (by simp [hi]), Finset.card_range] at hcard
  unfold bcard at h
  omega

/-- The mask step `jumps &= ~(board[RED] | board[GREEN])` leaves no occupied bit. -/
theorem masked_no_occ {X occ : Nat} (hocc : occ < 2 ^ 128) :
    (X &&& (mask128 ^^^ occ)) &&& occ = 0 := by
  rw [land_eq_zero_iff]
  intro i ⟨ha, hb⟩
  have hi : i < 128 := testBit_lt_of_lt_two_pow hocc hb
  have hmask : mask128.testBit i = true := by
    rw [mask128, Nat.testBit_two_pow_sub_one]
    simp [hi]
  simp [Nat.testBit_land, Nat.testBit_xor, hmask, hb] at ha

/-- Monotonicity: the accumulated destination set only ever grows. -/
theorem jumpMovesF_superset (t : Tables) (occ : Nat) :
    ∀ (fuel src tset i : Nat), tset.testBit i = true →
      (jumpMovesF t occ fuel src tset).testBit i = true := by
  intro fuel
  induction fuel with
  | zero => intro src tset i h; simpa [jumpMovesF] using h
  | succ f ih =>
    have inner : ∀ (l : List Nat) (acc i : Nat), acc.testBit i = true →
        (l.foldl (fun a d => jumpMovesF t occ f d a) acc).testBit i = true := by
      intro l
      induction l with
      | nil => intro acc i h; simpa using h
      | cons d rest ihl =>
        intro acc i h
        simp only [List.foldl_cons]
        exact ihl _ i (ih d acc i h)
    intro src tset i h
    rw [jumpMovesF]
    by_cases hj : (t.JUMP src (t.ADJ src &&& occ) &&& (mask128 ^^^ occ)) ||| tset = tset
    · simpa [hj] using h
    · simp only [hj, if_neg, if_false]
      exact inner _ _ i (by simp [Nat.testBit_lor, h])

/-- Every cell the expansion adds is empty: the accumulated set stays disjoint
from the occupancy it was called with. -/
theorem jumpMovesF_no_occ (t : Tables) {occ : Nat} (hocc : occ < 2 ^ 128) :
    ∀ (fuel src tset : Nat), tset &&& occ = 0 →
      (jumpMovesF t occ fuel src tset) &&& occ = 0 := by
  intro fuel
  induction fuel with
  | zero => intro src tset h; simpa [jumpMovesF] using h
  | succ f ih =>
    have inner : ∀ (l : List Nat) (acc : Nat), acc &&& occ = 0 →
        (l.foldl (fun a d => jumpMovesF t occ f d a) acc) &&& occ = 0 := by
      intro l
      induction l with
      | nil => intro acc h; simpa using h
      | cons d rest ihl =>
        intro acc h
        simp only [List.foldl_cons]
        exact ihl _ (ih d acc h)
    intro src tset h
    rw [jumpMovesF]
    by_cases hj : (t.JUMP src (t.ADJ src &&& occ) &&& (mask128 ^^^ occ)) ||| tset = tset
    · simpa [hj] using h
    · simp only [hj, if_neg, if_false]
      apply inner
      rw [land_eq_zero_iff]
      intro i ⟨ha, hb⟩
      rw [Nat.testBit_lor] at ha
      rcases Bool.or_eq_true_iff.1 ha with h1 | h1
      · exact absurd ⟨h1, hb⟩ (land_eq_zero_iff.1 h i)
      · exact absurd ⟨h1, hb⟩ (land_eq_zero_iff.1 (masked_no_occ hocc) i)

/-- Boundedness: with well-formed jump tables the set stays within the 81 cells. -/
theorem jumpMovesF_lt (t : Tables) (occ : Nat) (hwf : ∀ a k, t.JUMP a k < 2 ^ 81) :
    ∀ (fuel src tset : Nat), tset < 2 ^ 81 →
      jumpMovesF t occ fuel src tset < 2 ^ 81 := by
  intro fuel
  induction fuel with
  | zero => intro src tset h; simpa [jumpMovesF] using h
  | succ f ih =>
    have inner : ∀ (l : List Nat) (acc : Nat), acc < 2 ^ 81 →
        (l.foldl (fun a d => jumpMovesF t occ f d a) acc) < 2 ^ 81 := by
      intro l
      induction l with
      | nil => intro acc h; simpa using h
      | cons d rest ihl =>
        intro acc h
        simp only [List.foldl_cons]
        exact ihl _ (ih d acc h)
    intro src tset h
    rw [jumpMovesF]
    by_cases hj : (t.JUMP src (t.ADJ src &&& occ) &&& (mask128 ^^^ occ)) ||| tset = tset
    · simpa [hj] using h
    · simp only [hj, if_neg, if_false]
      apply inner
      exact lor_lt_two_pow h (lt_of_le_of_lt Nat.and_le_left (hwf _ _))

/-- Termination of the C++ recursion: past fuel `81 - bcard tset`, the result
no longer depends on the fuel, because the set strictly grows before every
recursive call and holds at most 81 cells. -/
theorem jumpMovesF_stable (t : Tables) {occ : Nat} (hwf : ∀ a k, t.JUMP a k < 2 ^ 81) :
    ∀ (n fuel gfuel src tset : Nat), 81 ≤ bcard tset + n → n < fuel → n < gfuel →
      tset < 2 ^ 81 →
      jumpMovesF t occ fuel src tset = jumpMovesF t occ gfuel src tset := by
  intro n
  induction n with
  | zero =>
    intro fuel gfuel src tset hn hf hg hlt
    obtain ⟨f, rfl⟩ : ∃ f, fuel = f + 1 := ⟨fuel - 1, by omega⟩
    obtain ⟨g, rfl⟩ : ∃ g, gfuel = g + 1 := ⟨gfuel - 1, by omega⟩
    have hall : (t.JUMP src (t.ADJ src &&& occ) &&& (mask128 ^^^ occ)) ||| tset = tset := by
      rw [lor_eq_right_iff]
      intro i hi
      have : i < 81 := testBit_lt_of_lt_two_pow
        (lt_of_le_of_lt Nat.and_le_left (hwf _ _)) hi
      exact bcard_full (by omega) this
    rw [jumpMovesF, jumpMovesF, if_pos hall, if_pos hall]
  | succ n ih =>
    intro fuel gfuel src tset hn hf hg hlt
    obtain ⟨f, rfl⟩ : ∃ f, fuel = f + 1 := ⟨fuel - 1, by omega⟩
    obtain ⟨g, rfl⟩ : ∃ g, gfuel = g + 1 := ⟨gfuel - 1, by omega⟩
    by_cases hj : (t.JUMP src (t.ADJ src &&& occ) &&& (mask128 ^^^ occ)) ||| tset = tset
    · rw [jumpMovesF, jumpMovesF, if_pos hj, if_pos hj]
    · have hex : ∃ i, (t.JUMP src (t.ADJ src &&& occ) &&& (mask128 ^^^ occ)).testBit i = true ∧
          tset.testBit i = false := by
        by_contra hc
        push_neg at hc
        apply hj
        rw [lor_eq_right_iff]
        intro i hi
        rcases h2 : tset.testBit i with _ | _
        · exact absurd h2 (hc i hi)
        · rfl
      obtain ⟨i, hji, hti⟩ := hex
      have hi81 : i < 81 := testBit_lt_of_lt_two_pow
        (lt_of_le_of_lt Nat.and_le_left (hwf _ _)) hji
      have hcard : bcard tset <
          bcard (tset ||| (t.JUMP src (t.ADJ src &&& occ) &&& (mask128 ^^^ occ))) := by
        apply bcard_strict (fun j hjt => by simp [Nat.testBit_lor, hjt]) hi81
          (by simp [Nat.testBit_lor, hji]) hti
      have hlt2 : tset ||| (t.JUMP src (t.ADJ src &&& occ) &&& (mask128 ^^^ occ)) < 2 ^ 81 :=
        lor_lt_two_pow hlt (lt_of_le_of_lt Nat.and_le_left (hwf _ _))
      have inner : ∀ (l : List Nat) (acc : Nat), 81 ≤ bcard acc + n → acc < 2 ^ 81 →
          l.foldl (fun a d => jumpMovesF t occ f d a) acc =
          l.foldl (fun a d => jumpMovesF t occ g d a) acc := by
        intro l
        induction l with
        | nil => intros; rfl
        | cons d rest ihl =>
          intro acc hacc haltb
          simp only [List.foldl_cons]
          have he : jumpMovesF t occ f d acc = jumpMovesF t occ g d acc :=
            ih f g d acc hacc (by omega) (by omega) haltb
          rw [he]
          apply ihl
          · have : bcard acc ≤ bcard (jumpMovesF t occ g d acc) :=
              bcard_mono (fun j hjt => jumpMovesF_superset t occ g d acc j hjt)
            omega
          · exact jumpMovesF_lt t occ hwf g d acc haltb
      rw [jumpMovesF, jumpMovesF, if_neg hj, if_neg hj]
      apply inner
      · omega
      · exact hlt2

/-! ### legalMoves: membership characterisation and duplicate-freedom -/

/-- Forward characterisation of `legalMoves` membership: every returned move
is `(src, dst)` with `src` a set bit of the moving side's occupancy and `dst`
a member of the jump-expanded destination set computed for that `src`. -/
theorem mem_legalMoves {t : Tables} {s : GameState} {c : Color} {m : Move}
    (hm : m ∈ s.legalMoves t c) :
    ∃ (src dst : Nat), m = ⟨(src : Int), (dst : Int)⟩ ∧ src < 128 ∧ dst < 128 ∧
      (s.board (resolveColor s c)).testBit src = true ∧
      (jumpMoves t (s.bR ||| s.bG) src
        (t.ADJ src &&& (mask128 ^^^ (s.bR ||| s.bG)))).testBit dst = true := by
  unfold GameState.legalMoves at hm
  rw [(sortMoves_perm _ _).mem_iff] at hm
  rw [List.mem_flatMap] at hm
  obtain ⟨src, hsrc, hmem⟩ := hm
  rw [List.mem_map] at hmem
  obtain ⟨dst, hdst, hmeq⟩ := hmem
  obtain ⟨hs1, hs2⟩ := mem_bitsDesc.1 hsrc
  obtain ⟨hd1, hd2⟩ := mem_bitsDesc.1 hdst
  exact ⟨src, dst, hmeq.symm, hs1, hd1, hs2, hd2⟩

/-- Every destination returned by `legalMoves` is an empty cell. -/
theorem legalMoves_dst_empty {t : Tables} {s : GameState} {src dst : Nat}
    (hR : s.bR < 2 ^ 128) (hG : s.bG < 2 ^ 128)
    (hd : (jumpMoves t (s.bR ||| s.bG) src
      (t.ADJ src &&& (mask128 ^^^ (s.bR ||| s.bG)))).testBit dst = true) :
    (s.bR ||| s.bG).testBit dst = false := by
  have hocc : (s.bR ||| s.bG) < 2 ^ 128 := lor_lt_two_pow hR hG
  have h0 : (t.ADJ src &&& (mask128 ^^^ (s.bR ||| s.bG))) &&& (s.bR ||| s.bG) = 0 :=
    masked_no_occ hocc
  have hres := jumpMovesF_no_occ t hocc 82 src _ h0
  rcases hb : (s.bR ||| s.bG).testBit dst with _ | _
  · rfl
  · exact absurd ⟨hd, hb⟩ (land_eq_zero_iff.1 hres dst)

theorem legalMoves_nodup (t : Tables) (s : GameState) (c : Color) :
    (s.legalMoves t c).Nodup := by
  unfold GameState.legalMoves
  apply ((sortMoves_perm _ _).nodup_iff).2
  rw [List.nodup_flatMap]
  constructor
  · intro src _
    apply (bitsDesc_nodup _).map
    intro a b hab
    simpa using congrArg Move.dst hab
  · apply (bitsDesc_nodup _).imp
    intro a b hab
    intro m hma hmb
    rw [List.mem_map] at hma hmb
    obtain ⟨d1, _, h1⟩ := hma
    obtain ⟨d2, _, h2⟩ := hmb
    apply hab
    have : (a : Int) = (b : Int) := by
      rw [← h2] at h1
      simpa using congrArg Move.src h1
    exact_mod_cast this

/-! ### applyMove / undoMove -/

theorem applyMove_red {s : GameState} (h : s.turn = Color.RED) (m : Move) :
    s.applyMove m =
      ⟨s.b0, (s.bR ^^^ (1 <<< m.src.toNat)) ||| (1 <<< m.dst.toNat), s.bG,
        Color.GREEN, s.round⟩ := by
  simp [GameState.applyMove, GameState.setBoard, GameState.board, h]

theorem applyMove_green {s : GameState} (h : s.turn = Color.GREEN) (m : Move) :
    s.applyMove m =
      ⟨s.b0, s.bR, (s.bG ^^^ (1 <<< m.src.toNat)) ||| (1 <<< m.dst.toNat),
        Color.RED, s.round + 1⟩ := by
  simp [GameState.applyMove, GameState.setBoard, GameState.board, h]

theorem undoMove_red {s : GameState} (h : s.turn = Color.RED) (m : Move) :
    s.undoMove m =
      ⟨s.b0, s.bR, (s.bG ^^^ (1 <<< m.dst.toNat)) ||| (1 <<< m.src.toNat),
        Color.GREEN, s.round - 1⟩ := by
  simp [GameState.undoMove, GameState.setBoard, GameState.board, h]

theorem undoMove_green {s : GameState} (h : s.turn = Color.GREEN) (m : Move) :
    s.undoMove m =
      ⟨s.b0, (s.bR ^^^ (1 <<< m.dst.toNat)) ||| (1 <<< m.src.toNat), s.bG,
        Color.RED, s.round⟩ := by
  simp [GameState.undoMove, GameState.setBoard, GameState.board, h]

theorem or_bit_false_left {a b : Nat} {i : Nat} (h : (a ||| b).testBit i = false) :
    a.testBit i = false := by
  rw [Nat.testBit_lor] at h
  exact (Bool.or_eq_false_iff.1 h).1

theorem or_bit_false_right {a b : Nat} {i : Nat} (h : (a ||| b).testBit i = false) :
    b.testBit i = false := by
  rw [Nat.testBit_lor] at h
  exact (Bool.or_eq_false_iff.1 h).2

/-- Applying a legal move and undoing it restores the full state. -/
theorem apply_undo_eq (t : Tables) (s : GameState) (m : Move)
    (hR : s.bR < 2 ^ 128) (hG : s.bG < 2 ^ 128) (hturn : s.turn ≠ Color.EMPTY)
    (hm : m ∈ s.legalMoves t Color.EMPTY) :
    (s.applyMove m).undoMove m = s := by
  obtain ⟨src, dst, hmeq, hs128, hd128, hsbit, hdbit⟩ := mem_legalMoves hm
  have hde : (s.bR ||| s.bG).testBit dst = false := legalMoves_dst_empty hR hG hdbit
  have hdR : s.bR.testBit dst = false := or_bit_false_left hde
  have hdG : s.bG.testBit dst = false := or_bit_false_right hde
  have hrc : resolveColor s Color.EMPTY = s.turn := by simp [resolveColor]
  rw [hrc] at hsbit
  subst hmeq
  rcases hc : s.turn with _ | _ | _
  · exact absurd hc hturn
  · -- RED to move
    rw [hc] at hsbit
    simp only [GameState.board] at hsbit
    have hsd : src ≠ dst := fun h => by rw [← h, hsbit] at hdR; cases hdR
    have hxd : (s.bR ^^^ (1 <<< src)).testBit dst = false := by
      simp [Nat.testBit_xor, hdR, Nat.one_shiftLeft, Nat.testBit_two_pow,
        fun h => hsd h]
    rw [applyMove_red hc, undoMove_green rfl]
    simp only [Int.toNat_ofNat]
    rw [lor_xor_cancel hxd, xor_lor_cancel hsbit]
    cases s
    simp_all
  · -- GREEN to move
    rw [hc] at hsbit
    simp only [GameState.board] at hsbit
    have hsd : src ≠ dst := fun h => by rw [← h, hsbit] at hdG; cases hdG
    have hxd : (s.bG ^^^ (1 <<< src)).testBit dst = false := by
      simp [Nat.testBit_xor, hdG, Nat.one_shiftLeft, Nat.testBit_two_pow,
        fun h => hsd h]
    rw [applyMove_green hc, undoMove_red rfl]
    simp only [Int.toNat_ofNat]
    rw [lor_xor_cancel hxd, xor_lor_cancel hsbit]
    cases s
    simp_all

/-- Applying a legal move preserves disjointness of the two occupancies. -/
theorem applyMove_disjoint (t : Tables) (s : GameState) (m : Move)
    (hdisj : s.bR &&& s.bG = 0)
    (hR : s.bR < 2 ^ 128) (hG : s.bG < 2 ^ 128) (hturn : s.turn ≠ Color.EMPTY)
    (hm : m ∈ s.legalMoves t Color.EMPTY) :
    (s.applyMove m).bR &&& (s.applyMove m).bG = 0 := by
  obtain ⟨src, dst, hmeq, hs128, hd128, hsbit, hdbit⟩ := mem_legalMoves hm
  have hde : (s.bR ||| s.bG).testBit dst = false := legalMoves_dst_empty hR hG hdbit
  have hdR : s.bR.testBit dst = false := or_bit_false_left hde
  have hdG : s.bG.testBit dst = false := or_bit_false_right hde
  have hrc : resolveColor s Color.EMPTY = s.turn := by simp [resolveColor]
  rw [hrc] at hsbit
  subst hmeq
  rcases hc : s.turn with _ | _ | _
  · exact absurd hc hturn
  · -- RED to move: bR updated, bG untouched
    rw [hc] at hsbit
    simp only [GameState.board] at hsbit
    rw [applyMove_red hc]
    simp only [Int.toNat_ofNat]
    rw [land_eq_zero_iff]
    intro i ⟨ha, hb⟩
    simp only [Nat.testBit_lor, Nat.testBit_xor, Nat.one_shiftLeft,
      Nat.testBit_two_pow] at ha
    by_cases hid : dst = i
    · subst hid; rw [hdG] at hb; cases hb
    · simp only [hid, decide_False, Bool.or_false] at ha
      by_cases his : src = i
      · subst his
        have : s.bG.testBit src = false := by
          rcases h2 : s.bG.testBit src with _ | _
          · rfl
          · exact absurd ⟨hsbit, h2⟩ (land_eq_zero_iff.1 hdisj src)
        rw [this] at hb; cases hb
      · simp only [his, decide_False, Bool.xor_false] at ha
        exact (land_eq_zero_iff.1 hdisj i) ⟨ha, hb⟩
  · -- GREEN to move: bG updated, bR untouched
    rw [hc] at hsbit
    simp only [GameState.board] at hsbit
    rw [applyMove_green hc]
    simp only [Int.toNat_ofNat]
    rw [land_eq_zero_iff]
    intro i ⟨ha, hb⟩
    simp only [Nat.testBit_lor, Nat.testBit_xor, Nat.one_shiftLeft,
      Nat.testBit_two_pow] at hb
    by_cases hid : dst = i
    · subst hid; rw [hdR] at ha; cases ha
    · simp only [hid, decide_False, Bool.or_false] at hb
      by_cases his : src = i
      · subst his
        have : s.bR.testBit src = false := by
          rcases h2 : s.bR.testBit src with _ | _
          · rfl
          · exact absurd ⟨h2, hsbit⟩ (land_eq_zero_iff.1 hdisj src)
        rw [this] at ha; cases ha
      · simp only [his, decide_False, Bool.xor_false] at hb
        exact (land_eq_zero_iff.1 hdisj i) ⟨ha, hb⟩

/-! ### String-constructor loop: invariants -/

theorem lor_pow_disjoint {a b p : Nat} (h : a &&& b = 0) (hb : b < 2 ^ p) :
    (a ||| (1 <<< p)) &&& b = 0 := by
  rw [land_eq_zero_iff] at h ⊢
  intro i ⟨ha, hib⟩
  rw [Nat.testBit_lor, Nat.one_shiftLeft, Nat.testBit_two_pow] at ha
  rcases Bool.or_eq_true_iff.1 ha with h1 | h1
  · exact h i ⟨h1, hib⟩
  · have hpi : p = i := of_decide_eq_true h1
    subst hpi
    rw [Nat.testBit_lt_two_pow hb] at hib
    cases hib

theorem lor_pow_lt {a p : Nat} (ha : a < 2 ^ p) : (a ||| (1 <<< p)) < 2 ^ (p + 1) := by
  rw [Nat.one_shiftLeft]
  exact lor_lt_two_pow (lt_trans ha (Nat.pow_lt_pow_succ (by omega)))
    (Nat.pow_lt_pow_succ (by omega))

/-- The constructor loop keeps the two boards disjoint: each character can set
at most one bit, always at the fresh cursor position `p`. -/
theorem parseLoop_disjoint : ∀ (l : List Char) (bR bG p i : Nat),
    bR &&& bG = 0 → bR < 2 ^ p → bG < 2 ^ p →
    (parseLoop l bR bG p i).R &&& (parseLoop l bR bG p i).G = 0 := by
  intro l
  induction l with
  | nil => intro bR bG p i h _ _; simpa [parseLoop] using h
  | cons ch rest ih =>
    intro bR bG p i h hR hG
    rw [parseLoop]
    by_cases h0 : ch = '0'
    · simp only [if_pos h0]
      exact ih bR bG (p + 1) (i + 1) h
        (lt_trans hR (Nat.pow_lt_pow_succ (by omega)))
        (lt_trans hG (Nat.pow_lt_pow_succ (by omega)))
    · simp only [if_neg h0]
      by_cases h1 : ch = '1'
      · simp only [if_pos h1]
        exact ih _ bG (p + 1) (i + 1) (lor_pow_disjoint h hG) (lor_pow_lt hR)
          (lt_trans hG (Nat.pow_lt_pow_succ (by omega)))
      · simp only [if_neg h1]
        by_cases h2 : ch = '2'
        · simp only [if_pos h2]
          have hd : (bG ||| (1 <<< p)) &&& bR = 0 := by
            rw [Nat.land_comm] at h
            exact lor_pow_disjoint h hR
          rw [Nat.land_comm] at hd
          exact ih bR _ (p + 1) (i + 1) hd
            (lt_trans hR (Nat.pow_lt_pow_succ (by omega))) (lor_pow_lt hG)
        · simp only [if_neg h2]
          by_cases h3 : ch = 'r'
          · simp only [if_pos h3]
            exact h
          · simp only [if_neg h3]
            by_cases h4 : ch = 'g'
            · simp only [if_pos h4]
              exact h
            · simp only [if_neg h4]
              exact ih bR bG p (i + 1) h hR hG

/-- When the loop ends on a side marker, the marker sits at character index
`i`, strictly inside the string. -/
theorem parseLoop_marker_bound : ∀ (l : List Char) (bR bG p i : Nat) (c : Color),
    (parseLoop l bR bG p i).marker = some c →
    (parseLoop l bR bG p i).i < i + l.length := by
  intro l
  induction l with
  | nil => intro bR bG p i c h; simp [parseLoop] at h
  | cons ch rest ih =>
    intro bR bG p i c h
    rw [parseLoop] at h ⊢
    simp only [List.length_cons]
    by_cases h0 : ch = '0'
    · rw [if_pos h0] at h ⊢
      have := ih _ _ _ _ _ h
      omega
    · rw [if_neg h0] at h ⊢
      by_cases h1 : ch = '1'
      · rw [if_pos h1] at h ⊢
        have := ih _ _ _ _ _ h
        omega
      · rw [if_neg h1] at h ⊢
        by_cases h2 : ch = '2'
        · rw [if_pos h2] at h ⊢
          have := ih _ _ _ _ _ h
          omega
        · rw [if_neg h2] at h ⊢
          by_cases h3 : ch = 'r'
          · rw [if_pos h3] at h ⊢
            show i < i + (rest.length + 1)
            omega
          · rw [if_neg h3] at h ⊢
            by_cases h4 : ch = 'g'
            · rw [if_pos h4] at h ⊢
              show i < i + (rest.length + 1)
              omega
            · rw [if_neg h4] at h ⊢
              have := ih _ _ _ _ _ h
              omega

/-- Any state the string constructor returns has disjoint occupancies. -/
theorem ofString_disjoint (str : String) (st : GameState)
    (h : GameState.ofString str = Except.ok st) : st.bR &&& st.bG = 0 := by
  unfold GameState.ofString at h
  have hd : (parseLoop str.data 0 0 0 0).R &&& (parseLoop str.data 0 0 0 0).G = 0 :=
    parseLoop_disjoint str.data 0 0 0 0 (by simp) (by simp) (by simp)
  by_cases hlen : (parseLoop str.data 0 0 0 0).i + 1 ≤ str.length
  · rw [if_pos hlen] at h
    cases hst : stoi ⟨str.data.drop ((parseLoop str.data 0 0 0 0).i + 1)⟩ with
    | ok v =>
      rw [hst] at h
      cases h
      exact hd
    | error e =>
      rw [hst] at h
      cases e
      · cases h
        exact hd
      · cases h
  · rw [if_neg hlen] at h
    cases h

/-! ### Search-loop instrumentation lemmas -/

theorem probeHit_applied {isMax : Bool} {depth : Nat} {alpha beta : Int} {mc : Color}
    {c : Cache} {e : TTEntry} {r : SRes}
    (h : probeHit isMax depth alpha beta mc c e = some r) : r.applied = [] := by
  unfold probeHit at h
  split at h
  · split at h
    · cases h; rfl
    · split at h
      · split at h
        · cases h; rfl
        · cases h
      · split at h
        · cases h; rfl
        · cases h
  · cases h

/-- The moves a `maxValue` loop hands to `applyMove` are an in-order prefix of
the move list it was given. -/
theorem maxLoopG_applied_front (child : GameState → Int → Int → Cache → SRes)
    (gs : GameState) (dstore : Nat) (beta : Int) (mc : Color) (h : Nat) :
    ∀ (moves : List Move) (alpha : Int) (best : Move) (flag : HashFlag) (c : Cache),
      ∃ rest, (maxLoopG child gs dstore beta mc h moves alpha best flag c).applied ++ rest =
        moves := by
  intro moves
  induction moves with
  | nil => intro alpha best flag c; exact ⟨[], rfl⟩
  | cons m rest ih =>
    intro alpha best flag c
    simp only [maxLoopG]
    split
    · split
      · exact ⟨rest, rfl⟩
      · obtain ⟨r2, hr2⟩ := ih (child (gs.copy.applyMove m) alpha beta c).value m
          HashFlag.EXACT (child (gs.copy.applyMove m) alpha beta c).cache
        exact ⟨r2, by simp [hr2]⟩
    · obtain ⟨r2, hr2⟩ := ih alpha best flag (child (gs.copy.applyMove m) alpha beta c).cache
      exact ⟨r2, by simp [hr2]⟩

theorem minLoopG_applied_front (child : GameState → Int → Int → Cache → SRes)
    (gs : GameState) (dstore : Nat) (alpha : Int) (mc : Color) (h : Nat) :
    ∀ (moves : List Move) (beta : Int) (best : Move) (flag : HashFlag) (c : Cache),
      ∃ rest, (minLoopG child gs dstore alpha mc h moves beta best flag c).applied ++ rest =
        moves := by
  intro moves
  induction moves with
  | nil => intro beta best flag c; exact ⟨[], rfl⟩
  | cons m rest ih =>
    intro beta best flag c
    simp only [minLoopG]
    split
    · split
      · exact ⟨rest, rfl⟩
      · obtain ⟨r2, hr2⟩ := ih (child (gs.copy.applyMove m) alpha beta c).value m
          HashFlag.EXACT (child (gs.copy.applyMove m) alpha beta c).cache
        exact ⟨r2, by simp [hr2]⟩
    · obtain ⟨r2, hr2⟩ := ih beta best flag (child (gs.copy.applyMove m) alpha beta c).cache
      exact ⟨r2, by simp [hr2]⟩

/-- At any node, the moves actually applied form a prefix of the full
`legalMoves()` list: nothing is filtered out, the loop only stops early at a
beta cutoff. -/
theorem searchLevel_applied_front (t : Tables) (depth : Nat) (isMax : Bool)
    (gs : GameState) (alpha beta : Int) (mc : Color) (c : Cache) :
    ∃ rest, (searchLevel t depth isMax gs alpha beta mc c).applied ++ rest =
      gs.legalMoves t Color.EMPTY := by
  cases depth with
  | zero =>
    rw [searchLevel]
    cases hf : Cache.find c (gs.hash t) with
    | none => exact ⟨gs.legalMoves t Color.EMPTY, rfl⟩
    | some e =>
      dsimp only
      cases hp : probeHit isMax 0 alpha beta mc c e with
      | none => exact ⟨gs.legalMoves t Color.EMPTY, rfl⟩
      | some r =>
        refine ⟨gs.legalMoves t Color.EMPTY, ?_⟩
        dsimp only
        rw [probeHit_applied hp]
        rfl
  | succ d =>
    rw [searchLevel]
    have hbody : ∃ rest,
        ((if gs.isGameOver t then
            (⟨⟨-2, -2⟩, gs.evaluate t mc, c, []⟩ : SRes)
          else if isMax then
            maxLoopG (fun ns a b cc => searchLevel t d false ns a b mc cc) gs (d + 1) beta mc
              (gs.hash t) (gs.legalMoves t Color.EMPTY) alpha ⟨-3, -3⟩ HashFlag.ALPHA c
          else
            minLoopG (fun ns a b cc => searchLevel t d true ns a b mc cc) gs (d + 1) alpha mc
              (gs.hash t) (gs.legalMoves t Color.EMPTY) beta ⟨-3, -3⟩
              HashFlag.BETA c)).applied ++ rest = gs.legalMoves t Color.EMPTY := by
      by_cases hgo : gs.isGameOver t
      · exact ⟨gs.legalMoves t Color.EMPTY, by simp [hgo]⟩
      · rcases isMax with _ | _
        · simpa [hgo] using minLoopG_applied_front _ gs (d + 1) alpha mc (gs.hash t)
            (gs.legalMoves t Color.EMPTY) beta ⟨-3, -3⟩ HashFlag.BETA c
        · simpa [hgo] using maxLoopG_applied_front _ gs (d + 1) beta mc (gs.hash t)
            (gs.legalMoves t Color.EMPTY) alpha ⟨-3, -3⟩ HashFlag.ALPHA c
    cases hf : Cache.find c (gs.hash t) with
    | none => exact hbody
    | some e =>
      dsimp only
      cases hp : probeHit isMax (d + 1) alpha beta mc c e with
      | none => exact hbody
      | some r =>
        refine ⟨gs.legalMoves t Color.EMPTY, ?_⟩
        dsimp only
        rw [probeHit_applied hp]
        rfl

/-! ### Concrete instances of the external tables, used by witnesses and
counterexamples (the tables are external inputs; these are small valid
instantiations of the provider contract) -/

/-- One red piece on cell 40 whose only adjacency is cell 44; one green piece
on cell 0; no jumps anywhere; all distances 5 (no side terminal). -/
def Tmini : Tables :=
  ⟨fun src => if src = 40 then 2 ^ 44 else 0, fun _ _ => 0, fun _ => 5, fun _ => 0,
   fun _ _ => 0, 2 ^ 40, 1⟩

def Smini : GameState := ⟨0, 2 ^ 40, 1, Color.RED, 3⟩

/-- Like `Tmini` but with distances making the move 40 → 44 a backward move
(progress delta −5) under either side's orientation (the distance table is
mirror-symmetric on the cells involved: 40 ↔ 40, 44 ↔ 36). -/
def T1 : Tables :=
  ⟨fun src => if src = 40 then 2 ^ 44 else 0, fun _ _ => 0,
   fun i => if i = 36 ∨ i = 44 then 0 else 5, fun _ => 0, fun _ _ => 0, 2 ^ 40, 1⟩

def S1 : GameState := ⟨0, 2 ^ 40, 1, Color.RED, 5⟩

/-- All distances equal to the terminal threshold 13: both sides terminal. -/
def T13 : Tables :=
  ⟨fun _ => 0, fun _ _ => 0, fun _ => 13, fun _ => 0, fun _ _ => 0, 0, 0⟩

def S13 : GameState := ⟨0, 2 ^ 40, 1, Color.RED, 1⟩

/-- Transposition-cache scenario: red piece on 10 (single move 10 → 11),
green piece on 40 (single move 40 → 41); positional score 7 on cell 41 only,
so the depth-1 value (0) and the depth-2 value (−7) of the root differ;
distinct Zobrist keys for the four cells involved. -/
def T3 : Tables :=
  ⟨fun src => if src = 10 then 2 ^ 11 else if src = 40 then 2 ^ 41 else 0,
   fun _ _ => 0, fun _ => 5, fun i => if i = 41 then 7 else 0,
   fun i col => if i = 10 ∧ col = Color.RED then 1 else if i = 11 ∧ col = Color.RED then 2
     else if i = 40 ∧ col = Color.GREEN then 4 else if i = 41 ∧ col = Color.GREEN then 8
     else 0,
   0, 0⟩

def S3 : GameState := ⟨0, 2 ^ 10, 2 ^ 40, Color.RED, 5⟩

/-- The cache state left by a depth-2 search of `S3` from an empty cache. -/
def C3pop : Cache := (maxValue T3 S3 2 (-INF) INF Color.RED Cache.empty).cache

/-- The root entry that depth-2 search stores: the depth-2 score −7, EXACT. -/
def E3 : TTEntry := ⟨-7, 2, HashFlag.EXACT, ⟨10, 11⟩, Color.RED⟩

/-! ### Claim theorems -/

/-- C1 (counterexample): the search loop of `maxValue` applies a move whose
progress delta for the side to move is −5 ≤ −2: the backward-move exclusion
the spec describes does not exist in `maxValue`/`minValue`. -/
theorem c1_counterexample_backward_move_applied :
    Move.mk 40 44 ∈ (maxValue T1 S1 1 (-INF) INF Color.RED Cache.empty).applied ∧
    progressDelta T1 Color.RED ⟨40, 44⟩ ≤ -2 ∧
    T1.DIST 44 - T1.DIST 40 ≤ -2 := by decide

/-- C1 (amended): at every node the moves the `maxValue`/`minValue` loop
passes to `applyMove` are an in-order prefix of the full, unfiltered
`legalMoves()` list — no backward-move exclusion is applied; the prefix is
cut short only by a beta cutoff (or the timeout). -/
theorem c1_search_examines_unfiltered_front (t : Tables) (gs : GameState) (depth : Nat)
    (alpha beta : Int) (mc : Color) (c : Cache) :
    (∃ rest, (maxValue t gs depth alpha beta mc c).applied ++ rest =
      gs.legalMoves t Color.EMPTY) ∧
    (∃ rest, (minValue t gs depth alpha beta mc c).applied ++ rest =
      gs.legalMoves t Color.EMPTY) :=
  ⟨searchLevel_applied_front t depth true gs alpha beta mc c,
   searchLevel_applied_front t depth false gs alpha beta mc c⟩

/-- C2: for every position and every move `legalMoves()` produces for it,
`undoMove` (modelled from the spec, §4.1) after `applyMove` restores the
position exactly — both occupancies, side to move, round, and hash. -/
theorem c2_apply_undo_roundtrip (t : Tables) (s : GameState) (m : Move)
    (hR : s.bR < 2 ^ 128) (hG : s.bG < 2 ^ 128) (hturn : s.turn ≠ Color.EMPTY)
    (hm : m ∈ s.legalMoves t Color.EMPTY) :
    (s.applyMove m).undoMove m = s ∧
      ((s.applyMove m).undoMove m).hash t = s.hash t := by
  have h := apply_undo_eq t s m hR hG hturn hm
  exact ⟨h, by rw [h]⟩

theorem c2_apply_undo_roundtrip_witness :
    Move.mk 40 44 ∈ Smini.legalMoves Tmini Color.EMPTY ∧
    (Smini.applyMove ⟨40, 44⟩).undoMove ⟨40, 44⟩ = Smini :=
  ⟨by decide,
   (c2_apply_undo_roundtrip Tmini Smini ⟨40, 44⟩ (by decide) (by decide) (by decide)
     (by decide)).1⟩

/-- C3 (counterexample): searching `S3` at depth 1 with a cache pre-populated
by this engine's own depth-2 search returns score −7, while the same search
from a cleared cache returns 0 — the transposition cache changes the score. -/
theorem c3_counterexample_cache_changes_score :
    (maxValue T3 S3 1 (-INF) INF Color.RED
        (maxValue T3 S3 2 (-INF) INF Color.RED Cache.empty).cache).value ≠
      (maxValue T3 S3 1 (-INF) INF Color.RED Cache.empty).value := by decide

/-- C3 (amended): a probe that finds an entry for the position's hash with
`depthSearched ≥` the probe depth, matching `maxiumColor`, and flag EXACT
returns that entry's move and value verbatim — the value of a (possibly
deeper) earlier search — so a pre-populated cache can change the result, and
pre-populated vs. cleared searches agree only when no such overriding hit
occurs along the way. -/
theorem c3_exact_hit_short_circuits (t : Tables) (gs : GameState) (depth : Nat)
    (alpha beta : Int) (mc : Color) (c : Cache) (e : TTEntry)
    (hf : Cache.find c (gs.hash t) = some e) (hd : depth ≤ e.depth)
    (hmc : e.maxiumColor = mc) (hfl : e.flag = HashFlag.EXACT) :
    maxValue t gs depth alpha beta mc c = ⟨e.bestMove, e.value, c, []⟩ := by
  unfold maxValue
  cases depth with
  | zero =>
    rw [searchLevel, hf]
    dsimp only
    rw [probeHit, if_pos ⟨hd, hmc⟩, if_pos hfl]
  | succ d =>
    rw [searchLevel, hf]
    dsimp only
    rw [probeHit, if_pos ⟨hd, hmc⟩, if_pos hfl]

theorem c3_exact_hit_short_circuits_witness :
    Cache.find C3pop (S3.hash T3) = some E3 ∧
    maxValue T3 S3 1 (-INF) INF Color.RED C3pop = ⟨E3.bestMove, E3.value, C3pop, []⟩ :=
  ⟨by decide,
   c3_exact_hit_short_circuits T3 S3 1 (-INF) INF Color.RED C3pop E3 (by decide)
     (by decide) (by decide) (by decide)⟩

/-- C4: jump-chain expansion terminates (beyond fuel 82 the result is the
fixpoint `jumpMoves`, because the accumulated set strictly grows before every
recursive call), is monotonic (the set only grows, at every call), and is
bounded by the 81 board cells. -/
theorem c4_jump_expansion_terminates_monotone_bounded (t : Tables) (occ src tset : Nat)
    (hwf : ∀ a k, t.JUMP a k < 2 ^ 81) (ht : tset < 2 ^ 81) :
    (∀ fuel, 82 ≤ fuel → jumpMovesF t occ fuel src tset = jumpMoves t occ src tset) ∧
    (∀ fuel src2 tset2 i, tset2.testBit i = true →
      (jumpMovesF t occ fuel src2 tset2).testBit i = true) ∧
    jumpMoves t occ src tset < 2 ^ 81 ∧ bcard (jumpMoves t occ src tset) ≤ 81 := by
  refine ⟨?_, ?_, ?_, ?_⟩
  · intro fuel hf
    exact jumpMovesF_stable t hwf 81 fuel 82 src tset (by omega) (by omega) (by omega) ht
  · intro fuel src2 tset2 i h
    exact jumpMovesF_superset t occ fuel src2 tset2 i h
  · exact jumpMovesF_lt t occ hwf 82 src tset ht
  · exact bcard_le _

theorem c4_jump_expansion_witness :
    (∀ a k, Tmini.JUMP a k < 2 ^ 81) ∧ (2 ^ 44 : Nat) < 2 ^ 81 ∧
    jumpMoves Tmini (2 ^ 40 ||| 1) 40 (2 ^ 44) = 2 ^ 44 ∧
    jumpMoves Tmini (2 ^ 40 ||| 1) 40 (2 ^ 44) < 2 ^ 81 := by
  have hwf : ∀ a k, Tmini.JUMP a k < 2 ^ 81 := fun a k => by
    show (0 : Nat) < 2 ^ 81
    exact Nat.pos_pow_of_pos 81 (by omega)
  refine ⟨hwf, by norm_num, by decide,
    (c4_jump_expansion_terminates_monotone_bounded Tmini (2 ^ 40 ||| 1) 40 (2 ^ 44) hwf
      (by norm_num)).2.2.1⟩

/-- C5: the no-double-occupancy invariant `board[RED] & board[GREEN] == 0`
holds for freshly constructed positions (initial — given disjoint initial
masks from the provider —, copied, or successfully parsed from a string) and
is preserved by applying any move `legalMoves()` returns. -/
theorem c5_disjoint_occupancy_invariant (t : Tables) :
    (t.INIT_RED &&& t.INIT_GREEN = 0 →
      (GameState.init t).bR &&& (GameState.init t).bG = 0) ∧
    (∀ s : GameState, s.bR &&& s.bG = 0 → s.copy.bR &&& s.copy.bG = 0) ∧
    (∀ (str : String) (st : GameState), GameState.ofString str = Except.ok st →
      st.bR &&& st.bG = 0) ∧
    (∀ (s : GameState) (m : Move), s.bR &&& s.bG = 0 → s.bR < 2 ^ 128 → s.bG < 2 ^ 128 →
      s.turn ≠ Color.EMPTY → m ∈ s.legalMoves t Color.EMPTY →
      (s.applyMove m).bR &&& (s.applyMove m).bG = 0) := by
  refine ⟨fun h => h, fun s h => h, fun str st h => ofString_disjoint str st h, ?_⟩
  intro s m hd hR hG hturn hm
  exact applyMove_disjoint t s m hd hR hG hturn hm

theorem c5_disjoint_occupancy_invariant_witness :
    (GameState.init Tmini).bR &&& (GameState.init Tmini).bG = 0 ∧
    (Smini.applyMove ⟨40, 44⟩).bR &&& (Smini.applyMove ⟨40, 44⟩).bG = 0 :=
  ⟨(c5_disjoint_occupancy_invariant Tmini).1 (by decide),
   (c5_disjoint_occupancy_invariant Tmini).2.2.2 Smini ⟨40, 44⟩ (by decide) (by decide)
     (by decide) (by decide) (by decide)⟩

/-- C7 (counterexample): when both sides' minima equal 13, red's minimum
equals the goal threshold yet red's score is 0, not 10000 (green's override
runs last) — so "a side scores 10000 exactly when its minimum equals the
threshold" fails as stated. -/
theorem c7_counterexample_red_terminal_not_maximal :
    lastRedD T13 S13 = 13 ∧ (evaluateScores T13 S13).1 = 0 ∧
      (evaluateScores T13 S13).1 ≠ 10000 := by decide

/-- C7 (amended): the terminal override is characterised conditionally:
green scores 10000 (red 0) whenever `lastGreen = 13` (its branch runs last);
red scores 10000 (green 0) exactly when `lastRed = 13` and `lastGreen ≠ 13`;
when neither minimum equals 13 the scores are the positional sums minus the
penalties, with no forcing. -/
theorem c7_terminal_override_characterisation (t : Tables) (s : GameState) :
    (lastGreenD t s = 13 → evaluateScores t s = (0, 10000)) ∧
    (lastRedD t s = 13 → lastGreenD t s ≠ 13 → evaluateScores t s = (10000, 0)) ∧
    (lastRedD t s ≠ 13 → lastGreenD t s ≠ 13 →
      evaluateScores t s = (redBase t s, greenBase t s)) := by
  unfold evaluateScores
  refine ⟨fun hg => by simp [hg], fun hr hg => by simp [hr, hg], fun hr hg => by simp [hr, hg]⟩

theorem c7_terminal_override_witness :
    lastGreenD T13 S13 = 13 ∧ evaluateScores T13 S13 = (0, 10000) :=
  ⟨by decide, (c7_terminal_override_characterisation T13 S13).1 (by decide)⟩

/-- C9 (counterexample): an out-of-range round number makes the constructor
propagate a failure (`std::stoi` raises `std::out_of_range`, which the
`catch (std::invalid_argument)` clause does not catch), contradicting "the
constructor never propagates a failure to the caller". -/
theorem c9_counterexample_out_of_range_propagates :
    GameState.ofString ⟨['0', ' ', 'r', ' ', '9', '9', '9', '9', '9', '9', '9', '9',
      '9', '9', '9']⟩ = Except.error CtorErr.outOfRange := by rfl

/-- C9 (amended): when the side marker is found and the round-number suffix
fails to parse as a number (`invalid_argument`: no digits), the constructor
recovers locally: the board and side parsed from the prefix are kept and the
round defaults to 10. An out-of-range round still propagates. -/
theorem c9_invalid_round_defaults_to_ten (str : String) (a : ParseAcc) (col : Color)
    (ha : parseLoop str.data 0 0 0 0 = a) (hm : a.marker = some col)
    (hs : stoi ⟨str.data.drop (a.i + 1)⟩ = Except.error StoiErr.invalidArgument) :
    GameState.ofString str = Except.ok ⟨0, a.R, a.G, col, 10⟩ := by
  unfold GameState.ofString
  rw [ha]
  have hb : a.i < str.length := by
    have h2 := parseLoop_marker_bound str.data 0 0 0 0 col (by rw [ha]; exact hm)
    rw [ha] at h2
    have h3 : str.length = str.data.length := rfl
    omega
  rw [if_pos (by omega), hs, hm]
  rfl

theorem c9_invalid_round_defaults_witness :
    parseLoop (String.mk ['0', ' ', 'r', ' ', 'x']).data 0 0 0 0 =
      ⟨0, 0, 1, 2, some Color.RED⟩ ∧
    stoi ⟨(String.mk ['0', ' ', 'r', ' ', 'x']).data.drop 3⟩ =
      Except.error StoiErr.invalidArgument ∧
    GameState.ofString ⟨['0', ' ', 'r', ' ', 'x']⟩ =
      Except.ok ⟨0, 0, 0, Color.RED, 10⟩ :=
  ⟨by decide, by rfl,
   c9_invalid_round_defaults_to_ten ⟨['0', ' ', 'r', ' ', 'x']⟩ ⟨0, 0, 1, 2, some Color.RED⟩
     Color.RED (by decide) (by decide) (by rfl)⟩

/-- C10: when both sides' minima inside `evaluate()` equal the threshold 13,
the green branch is applied last and wins the tie: the scores become
`greenScore = 10000`, `redScore = 0`, so `evaluate(RED) = -10000` and
`evaluate(GREEN) = 10000`. -/
theorem c10_double_terminal_green_wins (t : Tables) (s : GameState)
    (hr : lastRedD t s = 13) (hg : lastGreenD t s = 13) :
    s.evaluate t Color.RED = -10000 ∧ s.evaluate t Color.GREEN = 10000 := by
  unfold GameState.evaluate evaluateScores
  simp [hr, hg]

theorem c10_double_terminal_green_wins_witness :
    lastRedD T13 S13 = 13 ∧ lastGreenD T13 S13 = 13 ∧
    S13.evaluate T13 Color.RED = -10000 ∧ S13.evaluate T13 Color.GREEN = 10000 := by
  refine ⟨by decide, by decide, ?_, ?_⟩
  · exact (c10_double_terminal_green_wins T13 S13 (by decide) (by decide)).1
  · exact (c10_double_terminal_green_wins T13 S13 (by decide) (by decide)).2

/-! ### Jump reachability: chains that never revisit a cell (C8) -/

/-- One jump step out of `src` in occupancy `occ`: a cell the jump-landing
lookup (keyed by the occupied-adjacent pattern of `src`) yields, minus the
occupied cells — exactly the `jumps` set `GameState::jumpMoves` computes. -/
def oneJump (t : Tables) (occ : Nat) (src dst : Nat) : Prop :=
  ((t.JUMP src (t.ADJ src &&& occ)) &&& (mask128 ^^^ occ)).testBit dst = true

/-- A finite, non-empty jump chain from `src` to `dst` that never revisits a
cell. -/
def JumpChain (t : Tables) (occ : Nat) (src dst : Nat) : Prop :=
  ∃ l : List Nat, l ≠ [] ∧ List.Chain (oneJump t occ) src l ∧
    l.getLast? = some dst ∧ (src :: l).Nodup

/-- Every cell the expansion adds is reachable from the original source by a
(possibly repeating) sequence of jumps. -/
theorem jumpMovesF_reach (t : Tables) (occ : Nat) :
    ∀ (fuel src tset d : Nat), (jumpMovesF t occ fuel src tset).testBit d = true →
      tset.testBit d = true ∨ Relation.TransGen (oneJump t occ) src d := by
  intro fuel
  induction fuel with
  | zero => intro src tset d h; exact Or.inl (by simpa [jumpMovesF] using h)
  | succ f ih =>
    intro src tset d h
    rw [jumpMovesF] at h
    by_cases hj : (t.JUMP src (t.ADJ src &&& occ) &&& (mask128 ^^^ occ)) ||| tset = tset
    · rw [if_pos hj] at h
      exact Or.inl h
    · rw [if_neg hj] at h
      have main : ∀ (l : List Nat) (acc : Nat),
          (∀ x ∈ l, oneJump t occ src x) →
          (∀ e, acc.testBit e = true → tset.testBit e = true ∨
            Relation.TransGen (oneJump t occ) src e) →
          ∀ e, (l.foldl (fun a dd => jumpMovesF t occ f dd a) acc).testBit e = true →
            tset.testBit e = true ∨ Relation.TransGen (oneJump t occ) src e := by
        intro l
        induction l with
        | nil => intro acc _ hacc e he; exact hacc e (by simpa using he)
        | cons x rest ihl =>
          intro acc hl hacc e he
          simp only [List.foldl_cons] at he
          refine ihl _ (fun y hy => hl y (List.mem_cons_of_mem _ hy)) ?_ e he
          intro e2 he2
          rcases ih x acc e2 he2 with h1 | h1
          · exact hacc e2 h1
          · exact Or.inr (Relation.TransGen.trans
              (Relation.TransGen.single (hl x (List.mem_cons_self x rest))) h1)
      refine main (bitsDesc _) _ ?_ ?_ d h
      · intro x hx
        exact (mem_bitsDesc.1 hx).2
      · intro e he
        rw [Nat.testBit_lor] at he
        rcases Bool.or_eq_true_iff.1 he with h1 | h1
        · exact Or.inl h1
        · exact Or.inr (Relation.TransGen.single h1)

theorem getLast?_append_cons (u : List Nat) (x : Nat) (v : List Nat) :
    (u ++ x :: v).getLast? = (x :: v).getLast? := by
  rw [List.getLast?_append]
  cases hv : (x :: v).getLast? with
  | none => rw [List.getLast?_eq_none_iff] at hv; cases hv
  | some y => rfl

theorem exists_dup_split (l : List Nat) (h : ¬ l.Nodup) :
    ∃ (u : List Nat) (x : Nat) (v : List Nat), l = u ++ x :: v ∧ x ∈ v := by
  induction l with
  | nil => exact absurd List.nodup_nil h
  | cons y ys ih =>
    by_cases hy : y ∈ ys
    · exact ⟨[], y, ys, rfl, hy⟩
    · have hys : ¬ ys.Nodup := fun hn => h (List.nodup_cons.2 ⟨hy, hn⟩)
      obtain ⟨u, x, v, heq, hx⟩ := ih hys
      exact ⟨y :: u, x, v, by rw [heq]; rfl, hx⟩

theorem chain_snoc {r : Nat → Nat → Prop} :
    ∀ (l : List Nat) (a d c : Nat), List.Chain r a l → l.getLast? = some d → r d c →
      List.Chain r a (l ++ [c]) := by
  intro l
  induction l with
  | nil => intro a d c _ hl; simp at hl
  | cons x xs ih =>
    intro a d c hch hlast hr
    cases hch with
    | cons hax hxs =>
      cases xs with
      | nil =>
        simp only [List.getLast?_singleton, Option.some.injEq] at hlast
        subst hlast
        exact List.Chain.cons hax (List.Chain.cons hr List.Chain.nil)
      | cons y ys =>
        rw [List.getLast?_cons_cons] at hlast
        exact List.Chain.cons hax (ih x d c hxs hlast hr)

/-- A transitive jump sequence yields some concrete chain list. -/
theorem transGen_chain {r : Nat → Nat → Prop} {a b : Nat}
    (h : Relation.TransGen r a b) :
    ∃ l : List Nat, l ≠ [] ∧ List.Chain r a l ∧ l.getLast? = some b := by
  induction h with
  | single h1 => exact ⟨[_], by simp, List.Chain.cons h1 List.Chain.nil, by simp⟩
  | tail _ h2 ih =>
    obtain ⟨l, hne, hch, hlast⟩ := ih
    exact ⟨l ++ [_], by simp, chain_snoc l _ _ _ hch hlast h2, by simp⟩

/-- Any chain from `a` to `b ≠ a` can be shortened to one that never revisits
a cell. -/
theorem chain_shorten {r : Nat → Nat → Prop} :
    ∀ (n : Nat) (a b : Nat) (l : List Nat), l.length ≤ n → l ≠ [] →
      List.Chain r a l → l.getLast? = some b → a ≠ b →
      ∃ l2 : List Nat, l2 ≠ [] ∧ List.Chain r a l2 ∧ l2.getLast? = some b ∧
        (a :: l2).Nodup := by
  intro n
  induction n with
  | zero =>
    intro a b l hl hne
    cases l with
    | nil => exact absurd rfl hne
    | cons x xs => simp at hl
  | succ n ih =>
    intro a b l hl hne hch hlast hab
    by_cases hnd : (a :: l).Nodup
    · exact ⟨l, hne, hch, hlast, hnd⟩
    · obtain ⟨u, x, v, heq, hxv⟩ := exists_dup_split _ hnd
      cases u with
      | nil =>
        simp only [List.nil_append, List.cons.injEq] at heq
        obtain ⟨rfl, rfl⟩ := heq
        obtain ⟨s1, s2, rfl⟩ := List.append_of_mem hxv
        have hc2 : List.Chain r a s2 := (List.chain_split.1 hch).2
        have hlast2 : (a :: s2).getLast? = some b := by
          rw [← getLast?_append_cons s1 a s2]
          exact hlast
        have hs2ne : s2 ≠ [] := by
          intro h0
          subst h0
          simp only [List.getLast?_singleton, Option.some.injEq] at hlast2
          exact hab hlast2
        have hlast3 : s2.getLast? = some b := by
          cases s2 with
          | nil => exact absurd rfl hs2ne
          | cons z zs => rw [List.getLast?_cons_cons] at hlast2; exact hlast2
        have hlen2 : s2.length ≤ n := by
          have := hl
          simp only [List.length_append, List.length_cons] at this
          omega
        exact ih a b s2 hlen2 hs2ne hc2 hlast3 hab
      | cons a0 u2 =>
        simp only [List.cons_append, List.cons.injEq] at heq
        obtain ⟨rfl, rfl⟩ := heq
        obtain ⟨v1, v2, rfl⟩ := List.append_of_mem hxv
        have hch1 := List.chain_split.1 (show List.Chain r a (u2 ++ x :: (v1 ++ x :: v2)) from hch)
        have hch2 := (List.chain_split.1 hch1.2).2
        have hch3 : List.Chain r a (u2 ++ x :: v2) := List.chain_split.2 ⟨hch1.1, hch2⟩
        have hlast2 : (u2 ++ x :: v2).getLast? = some b := by
          rw [getLast?_append_cons u2 x v2]
          rw [getLast?_append_cons u2 x (v1 ++ x :: v2)] at hlast
          rw [show (x :: (v1 ++ x :: v2)) = (x :: v1) ++ x :: v2 from by simp] at hlast
          rw [getLast?_append_cons (x :: v1) x v2] at hlast
          exact hlast
        have hlen2 : (u2 ++ x :: v2).length ≤ n := by
          have := hl
          simp only [List.length_append, List.length_cons] at this ⊢
          omega
        exact ih a b (u2 ++ x :: v2) hlen2 (by simp) hch3 hlast2 hab

theorem transGen_to_jump_chain {t : Tables} {occ a b : Nat} (hab : a ≠ b)
    (h : Relation.TransGen (oneJump t occ) a b) : JumpChain t occ a b := by
  obtain ⟨l, hne, hch, hlast⟩ := transGen_chain h
  obtain ⟨l2, h1, h2, h3, h4⟩ := chain_shorten l.length a b l (le_refl _) hne hch hlast hab
  exact ⟨l2, h1, h2, h3, h4⟩

/-- C8: for every position satisfying the occupancy invariant, `legalMoves()`
returns no duplicate `(src,dst)` pair; every source is a cell occupied by the
moving side, every destination is an empty cell, and each destination is
reachable from its source either as a direct adjacency or via a finite jump
chain that never revisits a cell. -/
theorem c8_legalMoves_nodup_sound (t : Tables) (s : GameState)
    (_hdisj : s.bR &&& s.bG = 0) (hR : s.bR < 2 ^ 128) (hG : s.bG < 2 ^ 128)
    (hturn : s.turn ≠ Color.EMPTY) :
    (s.legalMoves t Color.EMPTY).Nodup ∧
    ∀ m ∈ s.legalMoves t Color.EMPTY, ∃ src dst : Nat,
      m = ⟨(src : Int), (dst : Int)⟩ ∧
      (s.board s.turn).testBit src = true ∧
      (s.bR ||| s.bG).testBit dst = false ∧
      ((t.ADJ src).testBit dst = true ∨ JumpChain t (s.bR ||| s.bG) src dst) := by
  refine ⟨legalMoves_nodup t s Color.EMPTY, ?_⟩
  intro m hm
  obtain ⟨src, dst, hmeq, hs128, hd128, hsbit, hdbit⟩ := mem_legalMoves hm
  have hrc : resolveColor s Color.EMPTY = s.turn := by simp [resolveColor]
  rw [hrc] at hsbit
  have hde : (s.bR ||| s.bG).testBit dst = false := legalMoves_dst_empty hR hG hdbit
  have hso : (s.bR ||| s.bG).testBit src = true := by
    rcases hc : s.turn with _ | _ | _
    · exact absurd hc hturn
    · rw [hc] at hsbit
      simp only [GameState.board] at hsbit
      simp [Nat.testBit_lor, hsbit]
    · rw [hc] at hsbit
      simp only [GameState.board] at hsbit
      simp [Nat.testBit_lor, hsbit]
  have hsd : src ≠ dst := by
    intro h0
    rw [h0, hde] at hso
    cases hso
  refine ⟨src, dst, hmeq, hsbit, hde, ?_⟩
  rcases jumpMovesF_reach t (s.bR ||| s.bG) 82 src
      (t.ADJ src &&& (mask128 ^^^ (s.bR ||| s.bG))) dst hdbit with h1 | h1
  · left
    rw [Nat.testBit_land] at h1
    exact (Bool.and_eq_true_iff.1 h1).1
  · right
    exact transGen_to_jump_chain hsd h1

theorem c8_legalMoves_nodup_sound_witness :
    (Smini.legalMoves Tmini Color.EMPTY).Nodup ∧
    ∃ src dst : Nat, Move.mk 40 44 = ⟨(src : Int), (dst : Int)⟩ ∧
      (Smini.board Smini.turn).testBit src = true ∧
      (Smini.bR ||| Smini.bG).testBit dst = false ∧
      ((Tmini.ADJ src).testBit dst = true ∨ JumpChain Tmini (Smini.bR ||| Smini.bG) src dst) :=
  ⟨(c8_legalMoves_nodup_sound Tmini Smini (by decide) (by decide) (by decide) (by decide)).1,
   (c8_legalMoves_nodup_sound Tmini Smini (by decide) (by decide) (by decide)
     (by decide)).2 ⟨40, 44⟩ (by decide)⟩

/-! ### Decimal digits: `std::to_string` and `std::stoi` round-trip (C6) -/

theorem digitChar_toNat {d : Nat} (h : d < 10) : (digitChar d).toNat = 48 + d := by
  unfold digitChar
  interval_cases d <;> decide

theorem digitChar_isDigit {d : Nat} (h : d < 10) : (digitChar d).isDigit = true := by
  unfold digitChar
  interval_cases d <;> decide

theorem digitChar_ne_slash {d : Nat} (h : d < 10) : digitChar d ≠ '/' := by
  unfold digitChar
  interval_cases d <;> decide

theorem natDigitsRev_spec (n : Nat) :
    digitsVal (natDigitsRev n).reverse = n ∧
    (∀ c ∈ natDigitsRev n, c.isDigit = true) ∧ natDigitsRev n ≠ [] := by
  induction n using Nat.strong_induction_on with
  | _ n ih =>
    rw [natDigitsRev]
    by_cases h : n < 10
    · rw [if_pos h]
      refine ⟨?_, ?_, by simp⟩
      · simp [digitsVal, digitChar_toNat h]
      · intro c hc
        simp only [List.mem_singleton] at hc
        subst hc
        exact digitChar_isDigit h
    · rw [if_neg h]
      have hlt : n / 10 < n := Nat.div_lt_self (by omega) (by omega)
      obtain ⟨ih1, ih2, ih3⟩ := ih (n / 10) hlt
      refine ⟨?_, ?_, by simp⟩
      · rw [List.reverse_cons, digitsVal, List.foldl_append, List.foldl_cons,
          List.foldl_nil]
        show 10 * (natDigitsRev (n / 10)).reverse.foldl
          (fun a ch => 10 * a + (ch.toNat - 48)) 0 +
          ((digitChar (n % 10)).toNat - 48) = n
        have : (natDigitsRev (n / 10)).reverse.foldl
            (fun a ch => 10 * a + (ch.toNat - 48)) 0 = n / 10 := ih1
        rw [this, digitChar_toNat (Nat.mod_lt n (by omega))]
        omega
      · intro c hc
        rcases List.mem_cons.1 hc with h1 | h1
        · subst h1
          exact digitChar_isDigit (Nat.mod_lt n (by omega))
        · exact ih2 c h1

theorem natRepr_digits (n : Nat) : ∀ c ∈ natRepr n, c.isDigit = true := by
  intro c hc
  exact (natDigitsRev_spec n).2.1 c (by simpa [natRepr] using hc)

theorem natRepr_val (n : Nat) : digitsVal (natRepr n) = n := (natDigitsRev_spec n).1

theorem natRepr_ne_nil (n : Nat) : natRepr n ≠ [] := by
  unfold natRepr
  simpa using (natDigitsRev_spec n).2.2

theorem isSpaceChar_of_digit {c : Char} (h : c.isDigit = true) : isSpaceChar c = false := by
  have h1 : c ≠ ' ' := fun h0 => by rw [h0] at h; exact absurd h (by decide)
  have h2 : c ≠ '\t' := fun h0 => by rw [h0] at h; exact absurd h (by decide)
  have h3 : c ≠ '\n' := fun h0 => by rw [h0] at h; exact absurd h (by decide)
  have h4 : c ≠ Char.ofNat 11 := fun h0 => by rw [h0] at h; exact absurd h (by decide)
  have h5 : c ≠ Char.ofNat 12 := fun h0 => by rw [h0] at h; exact absurd h (by decide)
  have h6 : c ≠ '\r' := fun h0 => by rw [h0] at h; exact absurd h (by decide)
  simp [isSpaceChar, h1, h2, h3, h4, h5, h6]

theorem digit_not_sign {c : Char} (h : c.isDigit = true) : c ≠ '+' ∧ c ≠ '-' := by
  constructor
  · intro h0; rw [h0] at h; exact absurd h (by decide)
  · intro h0; rw [h0] at h; exact absurd h (by decide)

/-- `std::stoi` on a single space followed by the canonical decimal digits of
`n ≤ INT_MAX` parses back `n`. -/
theorem stoi_space_natRepr (n : Nat) (hn : n ≤ 2147483647) :
    stoi ⟨' ' :: natRepr n⟩ = Except.ok (n : Int) := by
  unfold stoi
  have hdrop : (' ' :: natRepr n).dropWhile isSpaceChar = natRepr n := by
    rw [List.dropWhile_cons]
    rw [if_pos (by decide)]
    cases hrep : natRepr n with
    | nil => rfl
    | cons c cs =>
      rw [List.dropWhile_cons,
        if_neg (by rw [isSpaceChar_of_digit (natRepr_digits n c (by rw [hrep]; exact List.mem_cons_self c cs))]; simp)]
  show (match (⟨' ' :: natRepr n⟩ : String).data.dropWhile isSpaceChar with
    | [] => stoiNum 1 []
    | ch :: rest =>
      if ch = '+' then stoiNum 1 rest
      else if ch = '-' then stoiNum (-1) rest
      else stoiNum 1 (ch :: rest)) = Except.ok (n : Int)
  rw [show (⟨' ' :: natRepr n⟩ : String).data = ' ' :: natRepr n from rfl, hdrop]
  cases hrep : natRepr n with
  | nil => exact absurd hrep (natRepr_ne_nil n)
  | cons c cs =>
    have hcd : c.isDigit = true := natRepr_digits n c (by rw [hrep]; exact List.mem_cons_self c cs)
    obtain ⟨hp, hm⟩ := digit_not_sign hcd
    dsimp only
    rw [if_neg hp, if_neg hm]
    unfold stoiNum
    have htake : (c :: cs).takeWhile Char.isDigit = c :: cs := by
      rw [List.takeWhile_eq_self_iff]
      intro x hx
      exact natRepr_digits n x (by rw [hrep]; exact hx)
    rw [htake]
    rw [if_neg (by simp)]
    have hval : digitsVal (c :: cs) = n := by rw [← hrep]; exact natRepr_val n
    rw [hval]
    rw [if_neg (by omega)]
    simp

/-! ### Cell encoding of the constructor loop (C6) -/

/-- The bit-set the constructor builds for one piece character `target`
(`'1'` for red, `'2'` for green) from a junk-free cell list starting at
cursor `p`. -/
def enc (target : Char) : List Char → Nat → Nat
  | [], _ => 0
  | c :: cs, p => (if c = target then (1 <<< p) else 0) ||| enc target cs (p + 1)

theorem enc_testBit_lt (target : Char) : ∀ (l : List Char) (p q : Nat), q < p →
    (enc target l p).testBit q = false := by
  intro l
  induction l with
  | nil => intro p q _; simp [enc]
  | cons c cs ih =>
    intro p q hq
    rw [enc, Nat.testBit_lor]
    have h2 : (enc target cs (p + 1)).testBit q = false := ih (p + 1) q (by omega)
    have h1 : (if c = target then (1 <<< p) else 0).testBit q = false := by
      by_cases hc : c = target
      · rw [if_pos hc, Nat.one_shiftLeft, Nat.testBit_two_pow]
        simp
        omega
      · simp [hc]
    rw [h1, h2]
    rfl

theorem enc_testBit (target : Char) :
    ∀ (l : List Char) (p k : Nat),
      (enc target l p).testBit (p + k) =
        decide (∃ h : k < l.length, l[k] = target) := by
  intro l
  induction l with
  | nil => intro p k; simp [enc]
  | cons c cs ih =>
    intro p k
    rw [enc, Nat.testBit_lor]
    cases k with
    | zero =>
      have h2 : (enc target cs (p + 1)).testBit (p + 0) = false :=
        enc_testBit_lt target cs (p + 1) (p + 0) (by omega)
      rw [h2, Bool.or_false]
      by_cases hc : c = target
      · rw [if_pos hc, Nat.one_shiftLeft, Nat.testBit_two_pow]
        simp [hc]
      · rw [if_neg hc]
        simp [hc, Nat.zero_testBit]
    | succ k2 =>
      have h1 : (if c = target then (1 <<< p) else 0).testBit (p + (k2 + 1)) = false := by
        by_cases hc : c = target
        · rw [if_pos hc, Nat.one_shiftLeft, Nat.testBit_two_pow]
          simp
        · simp [hc]
      rw [h1, Bool.false_or]
      have h3 : p + (k2 + 1) = (p + 1) + k2 := by omega
      rw [h3, ih (p + 1) k2]
      simp

/-- The constructor loop over a junk-free prefix of cell characters: it
accumulates exactly `enc '1'`/`enc '2'` of the cells (grouping slashes are
skipped but still counted by `i`). -/
theorem parseLoop_cells : ∀ (l tail : List Char) (bR bG p i : Nat),
    (∀ c ∈ l, c = '0' ∨ c = '1' ∨ c = '2' ∨ c = '/') →
    parseLoop (l ++ tail) bR bG p i =
      parseLoop tail (bR ||| enc '1' (l.filter (fun c => c ≠ '/')) p)
        (bG ||| enc '2' (l.filter (fun c => c ≠ '/')) p)
        (p + (l.filter (fun c => c ≠ '/')).length) (i + l.length) := by
  intro l
  induction l with
  | nil => intro tail bR bG p i _; simp [enc]
  | cons c cs ih =>
    intro tail bR bG p i hc
    have hcs : ∀ x ∈ cs, x = '0' ∨ x = '1' ∨ x = '2' ∨ x = '/' :=
      fun x hx => hc x (List.mem_cons_of_mem c hx)
    rcases hc c (List.mem_cons_self c cs) with h0 | h0 | h0 | h0
    · subst h0
      rw [List.cons_append, parseLoop, if_pos rfl, ih tail bR bG (p + 1) (i + 1) hcs]
      have hf : ('0' :: cs).filter (fun c => c ≠ '/') =
          '0' :: cs.filter (fun c => c ≠ '/') := by simp
      rw [hf]
      rw [show enc '1' ('0' :: cs.filter (fun c => c ≠ '/')) p =
        enc '1' (cs.filter (fun c => c ≠ '/')) (p + 1) from by rw [enc]; simp]
      rw [show enc '2' ('0' :: cs.filter (fun c => c ≠ '/')) p =
        enc '2' (cs.filter (fun c => c ≠ '/')) (p + 1) from by rw [enc]; simp]
      simp only [List.length_cons]
      have e1 : p + 1 + (cs.filter (fun c => c ≠ '/')).length =
        p + ((cs.filter (fun c => c ≠ '/')).length + 1) := by omega
      have e2 : i + 1 + cs.length = i + (cs.length + 1) := by omega
      rw [e1, e2]
    · subst h0
      rw [List.cons_append, parseLoop, if_neg (by decide), if_pos rfl,
        ih tail (bR ||| (1 <<< p)) bG (p + 1) (i + 1) hcs]
      have hf : ('1' :: cs).filter (fun c => c ≠ '/') =
          '1' :: cs.filter (fun c => c ≠ '/') := by simp
      rw [hf]
      rw [show enc '1' ('1' :: cs.filter (fun c => c ≠ '/')) p =
        (1 <<< p) ||| enc '1' (cs.filter (fun c => c ≠ '/')) (p + 1) from by rw [enc]; simp]
      rw [show enc '2' ('1' :: cs.filter (fun c => c ≠ '/')) p =
        enc '2' (cs.filter (fun c => c ≠ '/')) (p + 1) from by rw [enc]; simp]
      rw [Nat.lor_assoc]
      simp only [List.length_cons]
      have e1 : p + 1 + (cs.filter (fun c => c ≠ '/')).length =
        p + ((cs.filter (fun c => c ≠ '/')).length + 1) := by omega
      have e2 : i + 1 + cs.length = i + (cs.length + 1) := by omega
      rw [e1, e2]
    · subst h0
      rw [List.cons_append, parseLoop, if_neg (by decide), if_neg (by decide), if_pos rfl,
        ih tail bR (bG ||| (1 <<< p)) (p + 1) (i + 1) hcs]
      have hf : ('2' :: cs).filter (fun c => c ≠ '/') =
          '2' :: cs.filter (fun c => c ≠ '/') := by simp
      rw [hf]
      rw [show enc '1' ('2' :: cs.filter (fun c => c ≠ '/')) p =
        enc '1' (cs.filter (fun c => c ≠ '/')) (p + 1) from by rw [enc]; simp]
      rw [show enc '2' ('2' :: cs.filter (fun c => c ≠ '/')) p =
        (1 <<< p) ||| enc '2' (cs.filter (fun c => c ≠ '/')) (p + 1) from by rw [enc]; simp]
      rw [Nat.lor_assoc]
      simp only [List.length_cons]
      have e1 : p + 1 + (cs.filter (fun c => c ≠ '/')).length =
        p + ((cs.filter (fun c => c ≠ '/')).length + 1) := by omega
      have e2 : i + 1 + cs.length = i + (cs.length + 1) := by omega
      rw [e1, e2]
    · subst h0
      rw [List.cons_append, parseLoop, if_neg (by decide), if_neg (by decide),
        if_neg (by decide), if_neg (by decide), if_neg (by decide),
        ih tail bR bG p (i + 1) hcs]
      have hf : ('/' :: cs).filter (fun c => c ≠ '/') =
          cs.filter (fun c => c ≠ '/') := by simp
      rw [hf]
      simp only [List.length_cons]
      have e2 : i + 1 + cs.length = i + (cs.length + 1) := by omega
      rw [e2]

/-! ### toString cell characters (C6) -/

theorem rowChar_ne_slash (s : GameState) (i : Nat) : rowChar s i ≠ '/' := by
  unfold rowChar
  by_cases h1 : s.bR.testBit i = true
  · simp [h1]
  · by_cases h2 : s.bG.testBit i = true <;> simp [h1, h2]

/-- Dropping the grouping slashes from the cell part of `toString` leaves
exactly the 81 per-cell characters. -/
theorem toStrCells_filter (s : GameState) : ∀ (l : List Nat),
    ((l.flatMap (fun i => rowChar s i :: (if i % 9 = 8 ∧ i ≠ 80 then ['/'] else []))).filter
      (fun c => c ≠ '/')) = l.map (rowChar s) := by
  intro l
  induction l with
  | nil => rfl
  | cons x xs ih =>
    rw [List.flatMap_cons, List.filter_append, ih]
    congr 1
    by_cases hx : x % 9 = 8 ∧ x ≠ 80
    · rw [if_pos hx]
      simp [rowChar_ne_slash s x]
    · rw [if_neg hx]
      simp [rowChar_ne_slash s x]

/-- The board a well-formed cell list was parsed into prints back as the same
cell list. -/
theorem map_rowChar_enc (cells : List Char) (hlen : cells.length = 81)
    (hc : ∀ c ∈ cells, c = '0' ∨ c = '1' ∨ c = '2')
    (b0 : Nat) (turn : Color) (round : Int) :
    (List.range 81).map
      (rowChar ⟨b0, enc '1' cells 0, enc '2' cells 0, turn, round⟩) = cells := by
  apply List.ext_getElem (by simp [hlen])
  intro q h1 h2
  rw [List.getElem_map, List.getElem_range]
  have hq : q < 81 := by simpa using h1
  have hq2 : q < cells.length := by omega
  have hR : (enc '1' cells 0).testBit q = decide (cells[q] = '1') := by
    have h3 := enc_testBit '1' cells 0 q
    simp only [Nat.zero_add] at h3
    rw [h3, decide_eq_decide]
    exact ⟨fun ⟨_, h⟩ => h, fun h => ⟨hq2, h⟩⟩
  have hG : (enc '2' cells 0).testBit q = decide (cells[q] = '2') := by
    have h3 := enc_testBit '2' cells 0 q
    simp only [Nat.zero_add] at h3
    rw [h3, decide_eq_decide]
    exact ⟨fun ⟨_, h⟩ => h, fun h => ⟨hq2, h⟩⟩
  unfold rowChar
  simp only
  rcases hc cells[q] (by exact List.getElem_mem hq2) with h0 | h0 | h0
  · rw [hR, hG, h0]
    simp
  · rw [hR, h0]
    simp
  · rw [hR, hG, h0]
    simp

theorem digit_ne_slash {c : Char} (h : c.isDigit = true) : (c ≠ '/') = True := by
  simp only [ne_eq, eq_iff_iff, iff_true]
  intro h0
  rw [h0] at h
  exact absurd h (by decide)

/-- C6: a position parsed from a well-formed serialized board string (81 cell
characters from {0,1,2} with optional '/' grouping, a side marker, and a
canonical round number within int range) round-trips through `toString()` to
a serialization equal to the input once grouping slashes are ignored. -/
theorem c6_serialization_round_trip (cellsPart : List Char) (mk : Char) (n : Nat)
    (hchars : ∀ c ∈ cellsPart, c = '0' ∨ c = '1' ∨ c = '2' ∨ c = '/')
    (hlen : (cellsPart.filter (fun c => c ≠ '/')).length = 81)
    (hmk : mk = 'r' ∨ mk = 'g')
    (hn : n ≤ 2147483647) :
    ∃ st : GameState,
      GameState.ofString ⟨cellsPart ++ ' ' :: mk :: ' ' :: natRepr n⟩ = Except.ok st ∧
      (GameState.toStr st).data.filter (fun c => c ≠ '/') =
        (cellsPart ++ ' ' :: mk :: ' ' :: natRepr n).filter (fun c => c ≠ '/') := by
  have hcellchars : ∀ c ∈ cellsPart.filter (fun c => c ≠ '/'),
      c = '0' ∨ c = '1' ∨ c = '2' := by
    intro c hcf
    rw [List.mem_filter] at hcf
    rcases hchars c hcf.1 with h | h | h | h
    · exact Or.inl h
    · exact Or.inr (Or.inl h)
    · exact Or.inr (Or.inr h)
    · rw [h] at hcf
      simp at hcf
  have hcol : ∃ col : Color, (mk = 'r' → col = Color.RED) ∧ (mk = 'g' → col = Color.GREEN) ∧
      parseLoop (' ' :: mk :: ' ' :: natRepr n)
        (0 ||| enc '1' (cellsPart.filter (fun c => c ≠ '/')) 0)
        (0 ||| enc '2' (cellsPart.filter (fun c => c ≠ '/')) 0)
        (0 + (cellsPart.filter (fun c => c ≠ '/')).length) (0 + cellsPart.length) =
      ⟨enc '1' (cellsPart.filter (fun c => c ≠ '/')) 0,
       enc '2' (cellsPart.filter (fun c => c ≠ '/')) 0,
       0 + (cellsPart.filter (fun c => c ≠ '/')).length, cellsPart.length + 1, some col⟩ := by
    rcases hmk with h | h
    · subst h
      refine ⟨Color.RED, fun _ => rfl, fun hg => absurd hg (by decide), ?_⟩
      rw [parseLoop, if_neg (by decide), if_neg (by decide), if_neg (by decide),
        if_neg (by decide), if_neg (by decide), parseLoop, if_neg (by decide),
        if_neg (by decide), if_neg (by decide), if_pos rfl]
      simp
    · subst h
      refine ⟨Color.GREEN, fun hr => absurd hr (by decide), fun _ => rfl, ?_⟩
      rw [parseLoop, if_neg (by decide), if_neg (by decide), if_neg (by decide),
        if_neg (by decide), if_neg (by decide), parseLoop, if_neg (by decide),
        if_neg (by decide), if_neg (by decide), if_neg (by decide), if_pos rfl]
      simp
  obtain ⟨col, hcolr, hcolg, hloop⟩ := hcol
  have hparse : parseLoop (cellsPart ++ ' ' :: mk :: ' ' :: natRepr n) 0 0 0 0 =
      ⟨enc '1' (cellsPart.filter (fun c => c ≠ '/')) 0,
       enc '2' (cellsPart.filter (fun c => c ≠ '/')) 0,
       0 + (cellsPart.filter (fun c => c ≠ '/')).length, cellsPart.length + 1, some col⟩ := by
    rw [parseLoop_cells cellsPart (' ' :: mk :: ' ' :: natRepr n) 0 0 0 0 hchars]
    exact hloop
  have hdata : (⟨cellsPart ++ ' ' :: mk :: ' ' :: natRepr n⟩ : String).data =
      cellsPart ++ ' ' :: mk :: ' ' :: natRepr n := rfl
  have hslen : (⟨cellsPart ++ ' ' :: mk :: ' ' :: natRepr n⟩ : String).length =
      cellsPart.length + (3 + (natRepr n).length) := by
    show (cellsPart ++ ' ' :: mk :: ' ' :: natRepr n).length = _
    simp
    omega
  have hdrop : (cellsPart ++ ' ' :: mk :: ' ' :: natRepr n).drop (cellsPart.length + 1 + 1) =
      ' ' :: natRepr n := by
    have he : cellsPart.length + 1 + 1 = cellsPart.length + 2 := by omega
    rw [he, List.drop_append 2]
    rfl
  have hok : GameState.ofString ⟨cellsPart ++ ' ' :: mk :: ' ' :: natRepr n⟩ =
      Except.ok ⟨0, enc '1' (cellsPart.filter (fun c => c ≠ '/')) 0,
        enc '2' (cellsPart.filter (fun c => c ≠ '/')) 0, col, (n : Int)⟩ := by
    unfold GameState.ofString
    rw [hdata, hparse]
    dsimp only
    rw [if_pos (by rw [hslen]; omega)]
    rw [hdrop, stoi_space_natRepr n hn]
    rfl
  refine ⟨_, hok, ?_⟩
  -- the round-trip of the printed string
  have htostr : (GameState.toStr ⟨0, enc '1' (cellsPart.filter (fun c => c ≠ '/')) 0,
      enc '2' (cellsPart.filter (fun c => c ≠ '/')) 0, col, (n : Int)⟩).data =
      ((List.range 81).flatMap (fun i =>
        rowChar ⟨0, enc '1' (cellsPart.filter (fun c => c ≠ '/')) 0,
          enc '2' (cellsPart.filter (fun c => c ≠ '/')) 0, col, (n : Int)⟩ i ::
          (if i % 9 = 8 ∧ i ≠ 80 then ['/'] else []))) ++
        (if col = Color.RED then " r " else " g ").data ++ intRepr (n : Int) := by
    rfl
  rw [htostr]
  rw [List.filter_append, List.filter_append, toStrCells_filter]
  rw [map_rowChar_enc (cellsPart.filter (fun c => c ≠ '/')) hlen hcellchars 0 col (n : Int)]
  have hint : intRepr (n : Int) = natRepr n := by
    unfold intRepr
    rw [if_neg (by omega)]
    simp
  rw [hint]
  have hfilterdigits : (natRepr n).filter (fun c => c ≠ '/') = natRepr n := by
    rw [List.filter_eq_self]
    intro a ha
    simp [digit_ne_slash (natRepr_digits n a ha)]
  -- right-hand side
  rw [List.filter_append]
  have hrhs : (' ' :: mk :: ' ' :: natRepr n).filter (fun c => c ≠ '/') =
      ' ' :: mk :: ' ' :: natRepr n := by
    rw [List.filter_eq_self]
    intro a ha
    rcases List.mem_cons.1 ha with h | h
    · subst h; decide
    · rcases List.mem_cons.1 h with h2 | h2
      · subst h2
        rcases hmk with h3 | h3 <;> subst h3 <;> decide
      · rcases List.mem_cons.1 h2 with h3 | h3
        · subst h3; decide
        · simp [digit_ne_slash (natRepr_digits n a h3)]
  rw [hrhs]
  have hmarker : (if col = Color.RED then " r " else " g ").data.filter (fun c => c ≠ '/') =
      ' ' :: mk :: [' '] := by
    rcases hmk with h | h
    · rw [hcolr h, h]
      rfl
    · rw [hcolg h, h]
      have : (if Color.GREEN = Color.RED then " r " else " g ") = " g " := rfl
      rw [this]
      rfl
  rw [hmarker, hfilterdigits]
  simp

/-- An 81-cell board: one red piece, one green piece, the rest empty. -/
def C6cells : List Char := List.replicate 40 '0' ++ '1' :: '2' :: List.replicate 39 '0'

theorem c6_serialization_round_trip_witness :
    (∀ c ∈ C6cells, c = '0' ∨ c = '1' ∨ c = '2' ∨ c = '/') ∧
    (C6cells.filter (fun c => c ≠ '/')).length = 81 ∧
    (∃ st : GameState,
      GameState.ofString ⟨C6cells ++ ' ' :: 'g' :: ' ' :: natRepr 12⟩ = Except.ok st ∧
      (GameState.toStr st).data.filter (fun c => c ≠ '/') =
        (C6cells ++ ' ' :: 'g' :: ' ' :: natRepr 12).filter (fun c => c ≠ '/')) :=
  ⟨by decide, by decide,
   c6_serialization_round_trip C6cells 'g' 12 (by decide) (by decide) (Or.inr rfl)
     (by norm_num)⟩

end CC
